import Mathlib

set_option maxHeartbeats 1000000

/-!
Verification of the row-shift bookkeeping and reference-rewriting engine of
`src/v1.py` (insertion of row groups into a sheet, cumulative row offsets,
row-identity resolution, and textual rewriting of cell references).

Python dictionaries over row numbers are modelled as association lists
`List (Nat × Nat)` with distinct keys; `dict.get(k, 0)` becomes a lookup with
default `0`.  Python strings are modelled as `List Char` / `String`.
-/

/-- `row_shift_map[a]` read through `dict.get(a, 0)`: the inserted count recorded
for anchor row `a`, or `0` when `a` is not an anchor. -/
def countAt (m : List (Nat × Nat)) (a : Nat) : Nat := (List.lookup a m).getD 0

/-- Value of the local variable `cumulative` in `calculate_cumulative_shifts`
after the loop iteration for original row `n`: the sum of the inserted counts of
all anchors `≤ n`. -/
def cum (m : List (Nat × Nat)) : Nat → Nat
  | 0 => 0
  | n + 1 => cum m n + countAt m (n + 1)

/-- `calculate_cumulative_shifts` (src/v1.py:127-185), read through
`dict.get(r, 0)`.  The loop writes, for every original row `1 ≤ r ≤ 99999`, the
running total accumulated strictly before row `r` (the early-exit fill past
`max(anchors) + 1000` writes the same final total to the remaining rows), and
rows outside `1..99999` have no entry, so a lookup returns the default `0`. -/
def calculate_cumulative_shifts (m : List (Nat × Nat)) (r : Nat) : Nat :=
  if m = [] then 0
  else if 1 ≤ r ∧ r ≤ 99999 then cum m (r - 1) else 0

/-- Offset as worded by the spec: the sum of the inserted counts of all anchors
strictly less than `r`. -/
def specOffset (m : List (Nat × Nat)) (r : Nat) : Nat :=
  ((m.filter (fun p => p.1 < r)).map Prod.snd).sum

/-- `sorted(row_shift_map.keys())`. -/
def sortedKeys (m : List (Nat × Nat)) : List Nat :=
  (m.map Prod.fst).insertionSort (· ≤ ·)

/-- Rows `actual_position + 1 .. actual_position + count` added by one anchor in
`get_inserted_rows_set`. -/
def blockRows (actual count : Nat) : List Nat :=
  (List.range count).map (fun i => actual + 1 + i)

/-- Loop of `get_inserted_rows_set`, walking the sorted anchors with the running
`cumulative` total. -/
def insertedRowsAux (m : List (Nat × Nat)) : List Nat → Nat → List Nat
  | [], _ => []
  | k :: ks, cumul =>
    blockRows (k + cumul) (countAt m k) ++ insertedRowsAux m ks (cumul + countAt m k)

/-- `get_inserted_rows_set` (src/v1.py:307-335); the Python set is modelled by a
list queried through membership. -/
def get_inserted_rows_set (m : List (Nat × Nat)) : List Nat :=
  insertedRowsAux m (sortedKeys m) 0

/-- Loop of `get_source_row_for_inserted`, returning the matching anchor and its
shifted `actual_position` (the sentinel `(0, 0)` when no block contains the
target, mirroring the Python fall-through `return 0`). -/
def sourceBlockAux (m : List (Nat × Nat)) (target : Nat) : List Nat → Nat → Nat × Nat
  | [], _ => (0, 0)
  | k :: ks, cumul =>
    if k + cumul < target ∧ target ≤ k + cumul + countAt m k then (k, k + cumul)
    else sourceBlockAux m target ks (cumul + countAt m k)

/-- `get_source_row_for_inserted` (src/v1.py:338-363).  The Python function also
receives `cumulative_shifts` but its body never uses it, so the parameter is
omitted. -/
def get_source_row_for_inserted (target : Nat) (m : List (Nat × Nat)) : Nat :=
  (sourceBlockAux m target (sortedKeys m) 0).1

/-- Scan of `reverse_map_row` from row `r` on, with `fuel` rows left to try. -/
def reverseMapFrom (m : List (Nat × Nat)) (target : Nat) : Nat → Nat → Nat
  | _, 0 => target
  | r, fuel + 1 =>
    if r + calculate_cumulative_shifts m r = target then r
    else reverseMapFrom m target (r + 1) fuel

/-- `reverse_map_row` (src/v1.py:279-304).  The dict built by
`calculate_cumulative_shifts` holds keys `1..99999` in ascending insertion
order, so iterating `items()` scans `r = 1, 2, …, 99999`; when no entry
satisfies `r + shift = target` the function falls through to `target` itself
(for an empty shift map the dict is empty and the fall-through also returns
`target`, which agrees with this model since every stored shift is then 0). -/
def reverse_map_row (target : Nat) (m : List (Nat × Nat)) : Nat :=
  reverseMapFrom m target 1 99999

/-- Row identity in the post-insertion layout (spec §3). -/
inductive RowIdentity where
  | Original : Nat → RowIdentity
  | Inserted : Nat → Nat → RowIdentity
  | Unmapped : RowIdentity
deriving DecidableEq, Repr

/-- The resolver used by `apply_formatting_to_target_sheet_v2`
(src/v1.py:728-753): a target row in the inserted set is `Inserted` with the
anchor found by `get_source_row_for_inserted` (its ordinal being the 1-based
position inside the block, `target - actual_position`, as enumerated by
`insert_rows_with_pandas`); otherwise it is `Original` of `reverse_map_row`. -/
def resolve (t : Nat) (m : List (Nat × Nat)) : RowIdentity :=
  if t ∈ get_inserted_rows_set m then
    RowIdentity.Inserted (sourceBlockAux m t (sortedKeys m) 0).1
      (t - (sourceBlockAux m t (sortedKeys m) 0).2)
  else
    RowIdentity.Original (reverse_map_row t m)

/-- What the formatting pass does to one target row. -/
inductive FormatAction where
  | CopyMetadata : Nat → FormatAction
  | CopyOriginal : Nat → FormatAction
  | Skip : FormatAction
deriving DecidableEq, Repr

/-- Per-row behaviour of `apply_formatting_to_target_sheet_v2`
(src/v1.py:728-753): an inserted row copies saved metadata of its source row if
that row has metadata, else nothing happens; any other row copies formatting
from the original sheet when the reverse-mapped row is in `1..max_row_original`,
else nothing happens.  No branch raises an error. -/
def apply_formatting_row_action (t : Nat) (m : List (Nat × Nat))
    (metadataKeys : List Nat) (maxRowOriginal : Nat) : FormatAction :=
  if t ∈ get_inserted_rows_set m then
    let s := get_source_row_for_inserted t m
    if s ∈ metadataKeys then FormatAction.CopyMetadata s else FormatAction.Skip
  else
    let s := reverse_map_row t m
    if 0 < s ∧ s ≤ maxRowOriginal then FormatAction.CopyOriginal s else FormatAction.Skip

/-- Python dict assignment `d[k] = v` on an association list: replace in place
if present, else append. -/
def dictAssign (m : List (Nat × Nat)) (k v : Nat) : List (Nat × Nat) :=
  if k ∈ m.map Prod.fst then m.map (fun p => if p.1 = k then (k, v) else p)
  else m ++ [(k, v)]

/-- Construction of `row_shift_map` in `insert_rows_with_pandas`
(src/v1.py:612-649): the insertion requests, given as
`(row_number, len(new_rows))` pairs, are sorted by `row_number` in descending
order (Python's stable sort) and `row_shift_map[row_number] = num_inserted` is
executed for each. -/
def insert_rows_shift_map (insert_data : List (Nat × Nat)) : List (Nat × Nat) :=
  (insert_data.insertionSort (fun a b => b.1 ≤ a.1)).foldl
    (fun m p => dictAssign m p.1 p.2) []

/-! ### Basic lemmas about the cumulative map -/

theorem countAt_cons (k v x : Nat) (m : List (Nat × Nat)) :
    countAt ((k, v) :: m) x = if x = k then v else countAt m x := by
  simp only [countAt, List.lookup]
  by_cases h : x = k
  · subst h; simp
  · have hb : (x == k) = false := by simp [h]
    simp [hb, h]

theorem countAt_eq_zero_of_not_mem {m : List (Nat × Nat)} {x : Nat}
    (h : x ∉ m.map Prod.fst) : countAt m x = 0 := by
  induction m with
  | nil => rfl
  | cons p m ih =>
    obtain ⟨k, v⟩ := p
    simp only [List.map_cons, List.mem_cons] at h
    push_neg at h
    rw [countAt_cons, if_neg h.1]
    exact ih h.2

theorem mem_of_countAt_pos {m : List (Nat × Nat)} {x : Nat}
    (h : countAt m x ≠ 0) : x ∈ m.map Prod.fst := by
  by_contra hx
  exact h (countAt_eq_zero_of_not_mem hx)

theorem cum_nil (n : Nat) : cum [] n = 0 := by
  induction n with
  | zero => rfl
  | succ n ih => simp [cum, ih, countAt, List.lookup]

/-- Normal form of `calculate_cumulative_shifts`, absorbing the empty-map early
return. -/
theorem calculate_eq (m : List (Nat × Nat)) (r : Nat) :
    calculate_cumulative_shifts m r =
      if 1 ≤ r ∧ r ≤ 99999 then cum m (r - 1) else 0 := by
  unfold calculate_cumulative_shifts
  by_cases h : m = []
  · subst h; simp [cum_nil]
  · rw [if_neg h]

theorem cum_mono (m : List (Nat × Nat)) {a b : Nat} (h : a ≤ b) :
    cum m a ≤ cum m b := by
  induction b with
  | zero =>
    have ha : a = 0 := Nat.le_zero.mp h
    subst ha; exact le_refl _
  | succ b ih =>
    rcases Nat.lt_or_ge a (b + 1) with hl | hg
    · exact le_trans (ih (by omega)) (Nat.le_add_right _ _)
    · have : a = b + 1 := by omega
      subst this; exact le_refl _

theorem cum_cons {m : List (Nat × Nat)} {k : Nat} (v : Nat)
    (hk : k ∉ m.map Prod.fst) (n : Nat) :
    cum ((k, v) :: m) n = cum m n + (if 1 ≤ k ∧ k ≤ n then v else 0) := by
  induction n with
  | zero =>
    simp only [cum]
    rw [if_neg (by omega : ¬(1 ≤ k ∧ k ≤ 0))]
  | succ n ih =>
    simp only [cum, ih, countAt_cons]
    by_cases hkn : n + 1 = k
    · have h0 : countAt m (n + 1) = 0 := by
        rw [hkn]; exact countAt_eq_zero_of_not_mem hk
      rw [if_pos hkn, h0, if_neg (by omega : ¬(1 ≤ k ∧ k ≤ n)),
        if_pos (by omega : 1 ≤ k ∧ k ≤ n + 1)]
    · rw [if_neg hkn]
      by_cases h1 : 1 ≤ k ∧ k ≤ n
      · rw [if_pos h1, if_pos (by omega)]; omega
      · rw [if_neg h1, if_neg (by omega)]; omega

theorem specOffset_nil (r : Nat) : specOffset [] r = 0 := rfl

theorem specOffset_cons (k v r : Nat) (m : List (Nat × Nat)) :
    specOffset ((k, v) :: m) r = (if k < r then v else 0) + specOffset m r := by
  by_cases h : k < r <;> simp [specOffset, List.filter_cons, h]

/-- The loop total before row `r` is exactly the spec's sum of counts of anchors
strictly below `r` (keys distinct and positive). -/
theorem cum_eq_spec {m : List (Nat × Nat)} (hnd : (m.map Prod.fst).Nodup)
    (hpos : ∀ k ∈ m.map Prod.fst, 1 ≤ k) {r : Nat} (hr : 1 ≤ r) :
    cum m (r - 1) = specOffset m r := by
  induction m with
  | nil => rw [cum_nil, specOffset_nil]
  | cons p m ih =>
    obtain ⟨k, v⟩ := p
    simp only [List.map_cons, List.nodup_cons] at hnd
    have hk1 : 1 ≤ k := hpos k (by simp)
    have htail : ∀ x ∈ m.map Prod.fst, 1 ≤ x := fun x hx => hpos x (by simp [hx])
    rw [cum_cons v hnd.1, specOffset_cons, ih hnd.2 htail]
    have : (1 ≤ k ∧ k ≤ r - 1) ↔ k < r := by omega
    by_cases h : k < r
    · rw [if_pos (this.mpr h), if_pos h]; omega
    · rw [if_neg (fun hc => h (this.mp hc)), if_neg h]; omega

theorem specOffset_mono (m : List (Nat × Nat)) {r₁ r₂ : Nat} (h : r₁ ≤ r₂) :
    specOffset m r₁ ≤ specOffset m r₂ := by
  induction m with
  | nil => simp [specOffset_nil]
  | cons p m ih =>
    obtain ⟨k, v⟩ := p
    rw [specOffset_cons, specOffset_cons]
    have : (if k < r₁ then v else 0) ≤ (if k < r₂ then v else 0) := by
      by_cases hk : k < r₁
      · rw [if_pos hk, if_pos (by omega)]
      · rw [if_neg hk]; omega
    omega

theorem specOffset_of_all_lt {m : List (Nat × Nat)} {r : Nat}
    (h : ∀ k ∈ m.map Prod.fst, k < r) :
    specOffset m r = (m.map Prod.snd).sum := by
  induction m with
  | nil => rfl
  | cons p m ih =>
    obtain ⟨k, v⟩ := p
    rw [specOffset_cons, if_pos (h k (by simp)), ih (fun x hx => h x (by simp [hx]))]
    simp

theorem cum_stable {m : List (Nat × Nat)} {n : Nat}
    (h : ∀ k, n < k → countAt m k = 0) :
    ∀ j, n ≤ j → cum m j = cum m n
  | 0, hj => by
      have h0 : n = 0 := by omega
      subst h0; rfl
  | j + 1, hj => by
      rcases Nat.lt_or_ge n (j + 1) with hl | hge
      · have hrec := cum_stable h j (by omega)
        simp only [cum, hrec, h (j + 1) hl]
        omega
      · have hn : n = j + 1 := by omega
        subst hn; rfl

/-! ### Claim C1 -/

/-- Claim C1 (corrected).  For a shift table with distinct, positive anchor
rows, the map produced by the Shift Map Builder agrees with the spec's
cumulative sum `Σ inserted_count(a) for a < r` for every row `1 ≤ r ≤ 99999` —
in particular at every anchor row, whose own count is excluded — it is
monotonically non-decreasing on that range, and every row beyond the last
anchor up to 99999 receives the final cumulative total.  (The claim's "for
every original row r ≥ 1" fails beyond the hard-coded 99999 ceiling, see the
counterexample.) -/
theorem C1_cumulative_offset (m : List (Nat × Nat))
    (hnd : (m.map Prod.fst).Nodup) (hpos : ∀ k ∈ m.map Prod.fst, 1 ≤ k) :
    (∀ r, 1 ≤ r → r ≤ 99999 →
        calculate_cumulative_shifts m r = specOffset m r) ∧
    (∀ r₁ r₂, 1 ≤ r₁ → r₁ ≤ r₂ → r₂ ≤ 99999 →
        calculate_cumulative_shifts m r₁ ≤ calculate_cumulative_shifts m r₂) ∧
    (∀ a ∈ m.map Prod.fst, a ≤ 99999 →
        calculate_cumulative_shifts m a = specOffset m a) ∧
    (∀ r, 1 ≤ r → r ≤ 99999 → (∀ k ∈ m.map Prod.fst, k < r) →
        calculate_cumulative_shifts m r = (m.map Prod.snd).sum) := by
  have h1 : ∀ r, 1 ≤ r → r ≤ 99999 →
      calculate_cumulative_shifts m r = specOffset m r := by
    intro r hr h9
    rw [calculate_eq, if_pos ⟨hr, h9⟩]
    exact cum_eq_spec hnd hpos hr
  refine ⟨h1, ?_, ?_, ?_⟩
  · intro r₁ r₂ hr1 hle h9
    rw [h1 r₁ hr1 (by omega), h1 r₂ (by omega) h9]
    exact specOffset_mono m hle
  · intro a ha h9
    exact h1 a (hpos a ha) h9
  · intro r hr h9 hall
    rw [h1 r hr h9]
    exact specOffset_of_all_lt hall

theorem C1_cumulative_offset_witness :
    calculate_cumulative_shifts [(3, 2)] 5 = specOffset [(3, 2)] 5 ∧
    calculate_cumulative_shifts [(3, 2)] 4 ≤ calculate_cumulative_shifts [(3, 2)] 7 :=
  ⟨(C1_cumulative_offset [(3, 2)] (by decide) (by decide)).1 5 (by decide) (by decide),
   (C1_cumulative_offset [(3, 2)] (by decide) (by decide)).2.1 4 7
     (by decide) (by decide) (by decide)⟩

/-- Counterexample to claim C1 as stated: for the shift table `{3: 2}`, row
100000 lies beyond the last anchor, so the claimed total function would give the
final cumulative total 2, but the dict built by the source only covers rows
1..99999 and a lookup returns the default 0. -/
theorem C1_counterexample :
    calculate_cumulative_shifts [(3, 2)] 100000 = 0 ∧
    specOffset [(3, 2)] 100000 = 2 ∧
    calculate_cumulative_shifts [(3, 2)] 100000 ≠ specOffset [(3, 2)] 100000 := by
  decide

/-! ### Claim C5 -/

/-- Claim C5 (corrected).  For the shift table `{3: 2, 5: 1}` the offsets are 0
for rows 1..3, 2 for rows 4 and 5, and 3 for rows 6..99999; but result row 6
resolves as the original row 4 (shifted by 2), not as an inserted row, and
result row 8 resolves as the inserted row cloned from anchor 5 with ordinal 1,
not as original row 5. -/
theorem C5_scenario :
    (calculate_cumulative_shifts [(3, 2), (5, 1)] 1 = 0 ∧
     calculate_cumulative_shifts [(3, 2), (5, 1)] 2 = 0 ∧
     calculate_cumulative_shifts [(3, 2), (5, 1)] 3 = 0 ∧
     calculate_cumulative_shifts [(3, 2), (5, 1)] 4 = 2 ∧
     calculate_cumulative_shifts [(3, 2), (5, 1)] 5 = 2) ∧
    (∀ r, 6 ≤ r → r ≤ 99999 → calculate_cumulative_shifts [(3, 2), (5, 1)] r = 3) ∧
    resolve 6 [(3, 2), (5, 1)] = RowIdentity.Original 4 ∧
    resolve 8 [(3, 2), (5, 1)] = RowIdentity.Inserted 5 1 := by
  refine ⟨by decide, ?_, by decide, by decide⟩
  intro r h6 h9
  rw [calculate_eq, if_pos ⟨by omega, h9⟩]
  have hz : ∀ k, 5 < k → countAt [(3, 2), (5, 1)] k = 0 := by
    intro k hk
    rw [countAt_cons, if_neg (by omega), countAt_cons, if_neg (by omega)]
    rfl
  rw [cum_stable hz (r - 1) (by omega)]
  decide

theorem C5_scenario_witness :
    calculate_cumulative_shifts [(3, 2), (5, 1)] 7 = 3 :=
  C5_scenario.2.1 7 (by decide) (by decide)

/-- Counterexample to claim C5 as stated: row 6 does not resolve to
`Inserted(3, 1)` and row 8 does not resolve to `Original(5)`; moreover
`offset(100000)` is 0, not the claimed final total 3. -/
theorem C5_counterexample :
    resolve 6 [(3, 2), (5, 1)] ≠ RowIdentity.Inserted 3 1 ∧
    resolve 8 [(3, 2), (5, 1)] ≠ RowIdentity.Original 5 ∧
    calculate_cumulative_shifts [(3, 2), (5, 1)] 100000 ≠ 3 := by
  decide

/-! ### Claim C7 -/

/-- Claim C7 (corrected).  When two insertion requests target the same anchor
row, `insert_rows_with_pandas` raises no error: the stable descending sort keeps
both requests, each is spliced into the data frame, and the assignment
`row_shift_map[row_number] = num_inserted` lets the later request silently
overwrite the earlier one's count in the shift map (last-writer-wins). -/
theorem C7_duplicate_anchor_overwrites (c₁ c₂ : Nat) :
    insert_rows_shift_map [(5, c₁), (5, c₂)] = [(5, c₂)] := by
  simp [insert_rows_shift_map, List.insertionSort, List.orderedInsert, dictAssign]

/-- Counterexample to claim C7 as stated: two requests anchored at row 5 with
counts 2 and 3 produce the shift map `{5: 3}` — the later count silently
overwrites the earlier one; the counts are not merged and no
`AmbiguousShiftTable` failure exists in the source. -/
theorem C7_counterexample :
    insert_rows_shift_map [(5, 2), (5, 3)] = [(5, 3)] ∧
    (5, 2) ∉ insert_rows_shift_map [(5, 2), (5, 3)] ∧
    insert_rows_shift_map [(5, 2), (5, 3)] ≠ [(5, 5)] := by
  decide

/-! ### Sorted anchors and the inserted-rows blocks -/

theorem sortedKeys_perm (m : List (Nat × Nat)) :
    List.Perm (sortedKeys m) (m.map Prod.fst) :=
  List.perm_insertionSort _ _

theorem mem_sortedKeys {m : List (Nat × Nat)} {a : Nat} :
    a ∈ sortedKeys m ↔ a ∈ m.map Prod.fst :=
  (sortedKeys_perm m).mem_iff

theorem sortedKeys_pairwise {m : List (Nat × Nat)}
    (hnd : (m.map Prod.fst).Nodup) : List.Pairwise (· < ·) (sortedKeys m) := by
  have hs : List.Sorted (· ≤ ·) (sortedKeys m) := List.sorted_insertionSort _ _
  have hn : (sortedKeys m).Nodup := (sortedKeys_perm m).nodup_iff.mpr hnd
  exact (List.Pairwise.and hs hn).imp (fun h => lt_of_le_of_ne h.1 h.2)

theorem mem_blockRows {t actual count : Nat} :
    t ∈ blockRows actual count ↔ actual < t ∧ t ≤ actual + count := by
  simp only [blockRows, List.mem_map, List.mem_range]
  constructor
  · rintro ⟨i, hi, rfl⟩; omega
  · intro h; exact ⟨t - actual - 1, by omega, by omega⟩

theorem specOffset_succ {m : List (Nat × Nat)}
    (hnd : (m.map Prod.fst).Nodup) (r : Nat) :
    specOffset m (r + 1) = specOffset m r + countAt m r := by
  induction m with
  | nil => simp [specOffset_nil, countAt, List.lookup]
  | cons p m ih =>
    obtain ⟨k, v⟩ := p
    simp only [List.map_cons, List.nodup_cons] at hnd
    rw [specOffset_cons, specOffset_cons, countAt_cons, ih hnd.2]
    by_cases hk : r = k
    · subst hk
      rw [if_pos rfl, if_pos (by omega), if_neg (by omega),
        countAt_eq_zero_of_not_mem hnd.1]
      omega
    · rw [if_neg hk]
      by_cases hlt : k < r
      · rw [if_pos (by omega), if_pos hlt]; omega
      · rw [if_neg (by omega), if_neg hlt]; omega

theorem specOffset_eq_zero_of_le {m : List (Nat × Nat)} {r : Nat}
    (h : ∀ k ∈ m.map Prod.fst, r ≤ k) : specOffset m r = 0 := by
  induction m with
  | nil => rfl
  | cons p m ih =>
    obtain ⟨k, v⟩ := p
    rw [specOffset_cons, if_neg (by have := h k (by simp); omega)]
    have := ih (fun x hx => h x (by simp [hx]))
    omega

/-- The sum of the counts of the anchors below `r`, read off the key list,
equals the spec's cumulative offset. -/
theorem keys_filter_sum {m : List (Nat × Nat)}
    (hnd : (m.map Prod.fst).Nodup) (r : Nat) :
    (((m.map Prod.fst).filter (· < r)).map (countAt m)).sum = specOffset m r := by
  induction m with
  | nil => rfl
  | cons p m ih =>
    obtain ⟨k, v⟩ := p
    simp only [List.map_cons, List.nodup_cons] at hnd
    have hcong : ((m.map Prod.fst).filter (· < r)).map (countAt ((k, v) :: m)) =
        ((m.map Prod.fst).filter (· < r)).map (countAt m) := by
      apply List.map_congr_left
      intro x hx
      have hxk : ¬x = k := by
        intro he; subst he; exact hnd.1 (List.mem_of_mem_filter hx)
      rw [countAt_cons, if_neg hxk]
    rw [List.map_cons, specOffset_cons]
    by_cases hk : k < r
    · rw [List.filter_cons_of_pos (by simpa using hk), List.map_cons, List.sum_cons,
        hcong, ih hnd.2, countAt_cons, if_pos rfl, if_pos hk]
    · rw [List.filter_cons_of_neg (by simpa using hk), hcong, ih hnd.2, if_neg hk]
      omega

/-- The traversal invariant of the two anchor-walking loops: at the moment the
loop reaches anchor `a`, the running `cumulative` equals the spec offset of `a`. -/
def WalkInv (m : List (Nat × Nat)) (ks : List Nat) (cum₀ : Nat) : Prop :=
  ∀ a ∈ ks, cum₀ + ((ks.filter (· < a)).map (countAt m)).sum = specOffset m a

theorem walkInv_initial {m : List (Nat × Nat)}
    (hnd : (m.map Prod.fst).Nodup) : WalkInv m (sortedKeys m) 0 := by
  intro a _
  have hperm : List.Perm ((sortedKeys m).filter (· < a))
      ((m.map Prod.fst).filter (· < a)) :=
    (sortedKeys_perm m).filter _
  rw [Nat.zero_add, (hperm.map (countAt m)).sum_eq, keys_filter_sum hnd]

theorem walkInv_head {m : List (Nat × Nat)} {k : Nat} {ks : List Nat} {cum₀ : Nat}
    (hp : List.Pairwise (· < ·) (k :: ks)) (hinv : WalkInv m (k :: ks) cum₀) :
    cum₀ = specOffset m k := by
  have h := hinv k (by simp)
  rw [List.filter_cons_of_neg (by simp)] at h
  have hnil : ks.filter (· < k) = [] := by
    apply List.filter_eq_nil_iff.mpr
    intro x hx
    have := (List.pairwise_cons.mp hp).1 x hx
    simp; omega
  rw [hnil] at h
  simpa using h

theorem walkInv_tail {m : List (Nat × Nat)} {k : Nat} {ks : List Nat} {cum₀ : Nat}
    (hp : List.Pairwise (· < ·) (k :: ks)) (hinv : WalkInv m (k :: ks) cum₀) :
    WalkInv m ks (cum₀ + countAt m k) := by
  intro a ha
  have hka : k < a := (List.pairwise_cons.mp hp).1 a ha
  have h := hinv a (by simp [ha])
  rw [List.filter_cons_of_pos (by simpa using hka), List.map_cons, List.sum_cons] at h
  omega

/-- Membership in the inserted-rows set: exactly the rows of some anchor's block
`(a + offset(a), a + offset(a) + count(a)]`, with the offset being the spec's
cumulative sum. -/
theorem mem_insertedRowsAux {m : List (Nat × Nat)} :
    ∀ {ks : List Nat} {cum₀ : Nat},
      List.Pairwise (· < ·) ks → WalkInv m ks cum₀ → ∀ {t : Nat},
      (t ∈ insertedRowsAux m ks cum₀ ↔
        ∃ a ∈ ks, a + specOffset m a < t ∧ t ≤ a + specOffset m a + countAt m a) := by
  intro ks
  induction ks with
  | nil => intro cum₀ _ _ t; simp [insertedRowsAux]
  | cons k ks ih =>
    intro cum₀ hp hinv t
    have hc := walkInv_head hp hinv
    have hrest := ih (List.pairwise_cons.mp hp).2 (walkInv_tail hp hinv) (t := t)
    simp only [insertedRowsAux, List.mem_append, mem_blockRows, hrest]
    constructor
    · rintro (h | ⟨a, ha, h1, h2⟩)
      · exact ⟨k, by simp, by omega, by omega⟩
      · exact ⟨a, by simp [ha], h1, h2⟩
    · rintro ⟨a, ha, h1, h2⟩
      rcases List.mem_cons.mp ha with rfl | ha'
      · exact Or.inl ⟨by omega, by omega⟩
      · exact Or.inr ⟨a, ha', h1, h2⟩

/-- When the target lies in some anchor's block, the search of
`get_source_row_for_inserted` returns an anchor whose block contains the
target, together with that anchor's shifted `actual_position`. -/
theorem sourceBlockAux_spec {m : List (Nat × Nat)} :
    ∀ {ks : List Nat} {cum₀ : Nat},
      List.Pairwise (· < ·) ks → WalkInv m ks cum₀ → ∀ {t : Nat},
      (∃ a ∈ ks, a + specOffset m a < t ∧ t ≤ a + specOffset m a + countAt m a) →
      (sourceBlockAux m t ks cum₀).1 ∈ ks ∧
      (sourceBlockAux m t ks cum₀).2 =
        (sourceBlockAux m t ks cum₀).1 + specOffset m (sourceBlockAux m t ks cum₀).1 ∧
      (sourceBlockAux m t ks cum₀).2 < t ∧
      t ≤ (sourceBlockAux m t ks cum₀).2 + countAt m (sourceBlockAux m t ks cum₀).1 := by
  intro ks
  induction ks with
  | nil => rintro cum₀ _ _ t ⟨a, ha, _⟩; exact absurd ha (List.not_mem_nil a)
  | cons k ks ih =>
    intro cum₀ hp hinv t hex
    have hc := walkInv_head hp hinv
    by_cases hcond : k + cum₀ < t ∧ t ≤ k + cum₀ + countAt m k
    · simp only [sourceBlockAux, if_pos hcond]
      exact ⟨by simp, by simp [hc], hcond.1, hcond.2⟩
    · simp only [sourceBlockAux, if_neg hcond]
      have hex' : ∃ a ∈ ks, a + specOffset m a < t ∧
          t ≤ a + specOffset m a + countAt m a := by
        rcases hex with ⟨a, ha, h1, h2⟩
        rcases List.mem_cons.mp ha with rfl | ha'
        · exact absurd ⟨by omega, by omega⟩ hcond
        · exact ⟨a, ha', h1, h2⟩
      have := ih (List.pairwise_cons.mp hp).2 (walkInv_tail hp hinv) hex'
      exact ⟨List.mem_cons_of_mem _ this.1, this.2.1, this.2.2⟩

theorem specOffset_le_total (m : List (Nat × Nat)) (r : Nat) :
    specOffset m r ≤ (m.map Prod.snd).sum := by
  induction m with
  | nil => simp [specOffset_nil]
  | cons p m ih =>
    obtain ⟨k, v⟩ := p
    rw [specOffset_cons, List.map_cons, List.sum_cons]
    by_cases h : k < r
    · rw [if_pos h]; omega
    · rw [if_neg h]; omega

/-- The scan of `reverse_map_row` either stops at a row in the scanned range
satisfying `row + shift = target`, or falls through to `target` with no scanned
row satisfying the equation. -/
theorem reverseMapFrom_spec {m : List (Nat × Nat)} {t : Nat} :
    ∀ (r fuel : Nat),
      (r ≤ reverseMapFrom m t r fuel ∧ reverseMapFrom m t r fuel < r + fuel ∧
        reverseMapFrom m t r fuel +
          calculate_cumulative_shifts m (reverseMapFrom m t r fuel) = t) ∨
      (reverseMapFrom m t r fuel = t ∧
        ∀ k, r ≤ k → k < r + fuel → k + calculate_cumulative_shifts m k ≠ t)
  | r, 0 => Or.inr ⟨rfl, fun k h1 h2 => by omega⟩
  | r, fuel + 1 => by
      unfold reverseMapFrom
      by_cases h : r + calculate_cumulative_shifts m r = t
      · rw [if_pos h]
        exact Or.inl ⟨le_refl r, by omega, h⟩
      · rw [if_neg h]
        rcases reverseMapFrom_spec (r + 1) fuel with ⟨h1, h2, h3⟩ | ⟨he, hall⟩
        · exact Or.inl ⟨by omega, by omega, h3⟩
        · refine Or.inr ⟨he, fun k hk1 hk2 => ?_⟩
          rcases Nat.eq_or_lt_of_le hk1 with rfl | hlt
          · exact h
          · exact hall k (by omega) (by omega)

/-! ### Claim C2 -/

/-- Claim C2 (corrected).  For a shift table whose anchor rows are distinct,
positive and within the builder's supported range `1..99999`, row identity
resolution round-trips with the offset map: a row resolved as `Original r`
satisfies `r + offset(r) = t`, and a row resolved as `Inserted a i` lies in
`(a + offset(a), a + offset(a) + count(a)]` with `i = t - a - offset(a)`.
(Without the range bound on anchors the claim fails, see the counterexample.) -/
theorem C2_identity_roundtrip (m : List (Nat × Nat))
    (hnd : (m.map Prod.fst).Nodup)
    (hpos : ∀ k ∈ m.map Prod.fst, 1 ≤ k)
    (hbd : ∀ k ∈ m.map Prod.fst, k ≤ 99999) (t : Nat) :
    (∀ r, resolve t m = RowIdentity.Original r →
        r + calculate_cumulative_shifts m r = t) ∧
    (∀ a i, resolve t m = RowIdentity.Inserted a i →
        a + calculate_cumulative_shifts m a < t ∧
        t ≤ a + calculate_cumulative_shifts m a + countAt m a ∧
        i = t - (a + calculate_cumulative_shifts m a)) := by
  have hpw := sortedKeys_pairwise hnd
  have hinv := walkInv_initial hnd
  have hcs : ∀ x, 1 ≤ x → x ≤ 99999 →
      calculate_cumulative_shifts m x = specOffset m x := by
    intro x h1 h9
    rw [calculate_eq, if_pos ⟨h1, h9⟩]
    exact cum_eq_spec hnd hpos h1
  constructor
  · intro r hres
    by_cases hins : t ∈ get_inserted_rows_set m
    · rw [resolve, if_pos hins] at hres
      exact RowIdentity.noConfusion hres
    · rw [resolve, if_neg hins] at hres
      injection hres with hr
      subst hr
      rw [reverse_map_row]
      rcases reverseMapFrom_spec (m := m) (t := t) 1 99999 with ⟨_, _, h3⟩ | ⟨he, hall⟩
      · exact h3
      · rw [he]
        suffices hz : calculate_cumulative_shifts m t = 0 by omega
        by_contra hne
        rw [calculate_eq] at hne
        by_cases hrange : 1 ≤ t ∧ t ≤ 99999
        · rw [if_pos hrange] at hne
          have hspec : specOffset m t ≠ 0 := by
            rw [← cum_eq_spec hnd hpos hrange.1]; exact hne
          have hP1 : 1 ≤ 1 ∧ 1 + specOffset m 1 ≤ t :=
            ⟨le_refl 1, by rw [specOffset_eq_zero_of_le hpos]; omega⟩
          obtain ⟨k0, hk01, hk0le, hk0P2, hmax⟩ :
              ∃ k0, 1 ≤ k0 ∧ k0 ≤ t ∧ k0 + specOffset m k0 ≤ t ∧
                ∀ k, k0 < k → k ≤ t → ¬(k + specOffset m k ≤ t) := by
            refine ⟨Nat.findGreatest (fun k => 1 ≤ k ∧ k + specOffset m k ≤ t) t,
              Nat.le_findGreatest (P := fun k => 1 ≤ k ∧ k + specOffset m k ≤ t)
                hrange.1 hP1,
              Nat.findGreatest_le t,
              (Nat.findGreatest_spec (P := fun k => 1 ≤ k ∧ k + specOffset m k ≤ t)
                hrange.1 hP1).2, ?_⟩
            intro k hk hkt hc
            exact Nat.findGreatest_is_greatest
              (P := fun k => 1 ≤ k ∧ k + specOffset m k ≤ t) hk hkt ⟨by omega, hc⟩
          rcases Nat.eq_or_lt_of_le hk0P2 with hcase | hlt
          · exact hall k0 hk01 (by omega)
              (by rw [hcs k0 hk01 (by omega)]; exact hcase)
          · have hk0t : k0 < t := by
              by_contra hc
              have hkt : k0 = t := by omega
              subst hkt
              omega
            have hgt : t < k0 + 1 + specOffset m (k0 + 1) := by
              by_contra hc
              exact hmax (k0 + 1) (by omega) (by omega) (by omega)
            rw [specOffset_succ hnd] at hgt
            have hcnt : countAt m k0 ≠ 0 := by omega
            have hmem : k0 ∈ sortedKeys m :=
              mem_sortedKeys.mpr (mem_of_countAt_pos hcnt)
            exact hins ((mem_insertedRowsAux hpw hinv).mpr
              ⟨k0, hmem, hlt, by omega⟩)
        · rw [if_neg hrange] at hne
          exact hne rfl
  · intro a i hres
    by_cases hins : t ∈ get_inserted_rows_set m
    · rw [resolve, if_pos hins] at hres
      have hex := (mem_insertedRowsAux hpw hinv).mp hins
      have hsb := sourceBlockAux_spec hpw hinv hex
      injection hres with ha hi
      obtain ⟨hmem', heq', hlt', hle'⟩ := hsb
      rw [ha] at hmem' heq' hle'
      have hamem : a ∈ m.map Prod.fst := mem_sortedKeys.mp hmem'
      have hcalc : calculate_cumulative_shifts m a = specOffset m a :=
        hcs a (hpos a hamem) (hbd a hamem)
      rw [hcalc]
      refine ⟨by omega, by omega, by omega⟩
    · rw [resolve, if_neg hins] at hres
      exact RowIdentity.noConfusion hres

theorem C2_identity_roundtrip_witness :
    5 + calculate_cumulative_shifts [(3, 2), (5, 1)] 5 < 8 ∧
    8 ≤ 5 + calculate_cumulative_shifts [(3, 2), (5, 1)] 5 + countAt [(3, 2), (5, 1)] 5 ∧
    1 = 8 - (5 + calculate_cumulative_shifts [(3, 2), (5, 1)] 5) :=
  (C2_identity_roundtrip [(3, 2), (5, 1)] (by decide) (by decide) (by decide) 8).2
    5 1 (by decide)

/-- Counterexample to claim C2 as stated: with the shift table
`{50: 3, 100005: 2}`, result row 100009 resolves as `Inserted(100005, 1)`
(it is the first clone of anchor 100005, whose block truly starts after
100005 + 3), but the offset map gives `offset(100005) = 0` because the anchor
lies beyond the builder's 99999-row ceiling, so `t` is not in the claimed
interval `(a + offset(a), a + offset(a) + count(a)]` and the claimed ordinal
`t - a - offset(a) = 4` disagrees with the actual ordinal 1. -/
theorem C2_counterexample :
    resolve 100009 [(50, 3), (100005, 2)] = RowIdentity.Inserted 100005 1 ∧
    ¬(100009 ≤ 100005 + calculate_cumulative_shifts [(50, 3), (100005, 2)] 100005 +
        countAt [(50, 3), (100005, 2)] 100005) ∧
    (1 : Nat) ≠ 100009 - (100005 + calculate_cumulative_shifts [(50, 3), (100005, 2)] 100005) := by
  decide

/-! ### Claim C6 -/

/-- Claim C6 (code_bug): the code never aborts on a row that fails to resolve.
Evaluation of the code at the failing input: for the shift table `{3: 2}` on a
sheet whose original rows reach 150000, post-insertion row 100002 is the
shifted original row 100000 (100000 + offset 2), but `reverse_map_row`, whose
dict stops at row 99999, finds no original row and falls through to the
defaulted identity `Original(100002)` — not a valid identity, since original
row 100002 truly sits at 100004 — and the formatting pass then silently copies
formatting from row 100002; no branch raises an error. -/
theorem C6_unmapped_never_aborts :
    resolve 100002 [(3, 2)] = RowIdentity.Original 100002 ∧
    100000 + specOffset [(3, 2)] 100000 = 100002 ∧
    100002 + specOffset [(3, 2)] 100002 = 100004 ∧
    apply_formatting_row_action 100002 [(3, 2)] [3] 150000 =
      FormatAction.CopyOriginal 100002 := by
  have hnotins : 100002 ∉ get_inserted_rows_set [(3, 2)] := by decide
  have hrev : reverse_map_row 100002 [(3, 2)] = 100002 := by
    rw [reverse_map_row]
    rcases reverseMapFrom_spec (m := [(3, 2)]) (t := 100002) 1 99999 with
      ⟨h1, h2, h3⟩ | ⟨he, _⟩
    · exfalso
      set r' := reverseMapFrom [(3, 2)] 100002 1 99999 with hr'
      have hc : calculate_cumulative_shifts [(3, 2)] r' = specOffset [(3, 2)] r' := by
        rw [calculate_eq, if_pos ⟨by omega, by omega⟩]
        exact cum_eq_spec (by decide) (by decide) (by omega)
      have hb : specOffset [(3, 2)] r' ≤ 2 := by
        simpa using specOffset_le_total [(3, 2)] r'
      omega
    · exact he
  refine ⟨?_, by decide, by decide, ?_⟩
  · rw [resolve, if_neg hnotins, hrev]
  · rw [apply_formatting_row_action, if_neg hnotins]
    simp only [hrev]
    rw [if_pos (by omega)]

/-! ### Character-level model of the regex-based rewriters.

The patterns of `update_formula_with_shifts`, `update_hyperlink_with_shifts`
and `adjust_formula_references` are modelled as explicit scanners over
`List Char`: `re.sub` attempts the pattern at every position from left to
right, consumes a whole match on success, and otherwise advances one
character.  Character classes `[A-Z]` and `\d` are read as the ASCII ranges
the source data uses. -/

def isUpperAZ (c : Char) : Bool := 65 ≤ c.toNat && c.toNat ≤ 90

def isDigit09 (c : Char) : Bool := 48 ≤ c.toNat && c.toNat ≤ 57

/-- Numeric value of an ASCII digit. -/
def digitVal (c : Char) : Nat := c.toNat - 48

/-- `int(s)` on a digit string. -/
def parseNat (ds : List Char) : Nat := ds.foldl (fun a c => 10 * a + digitVal c) 0

def digitChar : Nat → Char
  | 0 => '0' | 1 => '1' | 2 => '2' | 3 => '3' | 4 => '4'
  | 5 => '5' | 6 => '6' | 7 => '7' | 8 => '8' | _ => '9'

def renderNatAux : Nat → Nat → List Char
  | 0, _ => []
  | fuel + 1, n =>
    if n < 10 then [digitChar n]
    else renderNatAux fuel (n / 10) ++ [digitChar (n % 10)]

/-- Decimal rendering of a natural number, as Python's string formatting
produces it. -/
def renderNat (n : Nat) : List Char := renderNatAux (n + 1) n

/-- Decimal rendering of an integer (a `-` sign for negative values). -/
def renderInt : Int → List Char
  | Int.ofNat n => renderNat n
  | Int.negSucc k => '-' :: renderNat (k + 1)

/-- Match a literal pattern at the head of the input; on success return the
remaining input. -/
def litMatch : List Char → List Char → Option (List Char)
  | [], cs => some cs
  | _ :: _, [] => none
  | p :: ps, c :: cs => if p = c then litMatch ps cs else none

/-- One match of the sheet-qualified reference pattern
`#?(?:'Sheet'|Sheet)!\$?[A-Z]+\$?[0-9]+` of the two shift rewriters. -/
structure SheetRef where
  hash : Bool
  quoted : Bool
  colAbs : Bool
  col : List Char
  rowAbs : Bool
  digits : List Char
deriving DecidableEq, Repr

/-- group(1): the sheet qualifier, including the optional `#` and the `!`. -/
def sheetQualifier (nm : List Char) (r : SheetRef) : List Char :=
  (if r.hash then ['#'] else []) ++
    (if r.quoted then '\'' :: (nm ++ ['\'']) else nm) ++ ['!']

/-- group(0): the exact text covered by the match. -/
def refChars (nm : List Char) (r : SheetRef) : List Char :=
  sheetQualifier nm r ++ (if r.colAbs then ['$'] else []) ++ r.col ++
    (if r.rowAbs then ['$'] else []) ++ r.digits

/-- Match `\$?[0-9]+` (the `\$?` already resolved to `ra`) at the head of the
input. -/
def tryRefDigits (ca : Bool) (col : List Char) (ra : Bool) (cs₃ : List Char) :
    Option ((Bool × List Char × Bool × List Char) × List Char) :=
  if cs₃.takeWhile isDigit09 = [] then none
  else some ((ca, col, ra, cs₃.takeWhile isDigit09), cs₃.dropWhile isDigit09)

/-- Resolve the greedy `\$?` before the digits. -/
def tryRefRow (ca : Bool) (col : List Char) (cs₂ : List Char) :
    Option ((Bool × List Char × Bool × List Char) × List Char) :=
  if cs₂.head? = some '$' then tryRefDigits ca col true cs₂.tail
  else tryRefDigits ca col false cs₂

/-- Match `[A-Z]+\$?[0-9]+` (the leading `\$?` already resolved to `ca`). -/
def tryRefCol (ca : Bool) (cs₁ : List Char) :
    Option ((Bool × List Char × Bool × List Char) × List Char) :=
  if cs₁.takeWhile isUpperAZ = [] then none
  else tryRefRow ca (cs₁.takeWhile isUpperAZ) (cs₁.dropWhile isUpperAZ)

/-- Match `\$?[A-Z]+\$?[0-9]+` at the head of the input (the Python pattern's
backtracking folded in: a consumed `$` must be followed by letters resp.
digits, otherwise the whole attempt fails). -/
def tryRef (cs : List Char) : Option ((Bool × List Char × Bool × List Char) × List Char) :=
  if cs.head? = some '$' then tryRefCol true cs.tail
  else tryRefCol false cs

/-- Attempt the unquoted alternative `Sheet!\$?[A-Z]+\$?[0-9]+`. -/
def tryMatchUnq (nm cs : List Char) : Option (SheetRef × List Char) :=
  (litMatch (nm ++ ['!']) cs).bind fun cs₁ =>
    (tryRef cs₁).bind fun out =>
      some ({ hash := false, quoted := false, colAbs := out.1.1, col := out.1.2.1,
              rowAbs := out.1.2.2.1, digits := out.1.2.2.2 }, out.2)

/-- Attempt the quoted alternative `'Sheet'!\$?[A-Z]+\$?[0-9]+`. -/
def quotedRef (nm cs : List Char) : Option (SheetRef × List Char) :=
  (litMatch ('\'' :: (nm ++ ['\'', '!'])) cs).bind fun cs₁ =>
    (tryRef cs₁).bind fun out =>
      some ({ hash := false, quoted := true, colAbs := out.1.1, col := out.1.2.1,
              rowAbs := out.1.2.2.1, digits := out.1.2.2.2 }, out.2)

/-- Attempt, at the current position, the formula pattern
`(?:'Sheet'|Sheet)!\$?[A-Z]+\$?[0-9]+` — the quoted alternative first, as in
the Python alternation, falling back to the unquoted one. -/
def tryMatchF (nm cs : List Char) : Option (SheetRef × List Char) :=
  quotedRef nm cs <|> tryMatchUnq nm cs

/-- Attempt the hyperlink pattern `#?(?:'Sheet'|Sheet)!…`: the greedy `#?`
first tries to consume a leading `#`. -/
def tryMatchH (nm cs : List Char) : Option (SheetRef × List Char) :=
  if cs.head? = some '#' then
    ((tryMatchF nm cs.tail).bind fun p => some ({ p.1 with hash := true }, p.2)) <|>
      tryMatchF nm cs
  else tryMatchF nm cs

/-- `replace_reference` of the two shift rewriters (src/v1.py:213-228 and
257-270): a match with an absolute row is returned unmodified; otherwise the
row becomes `row + shifts(row)` and the qualifier and markers are kept. -/
def replaceRef (nm : List Char) (shifts : Nat → Nat) (r : SheetRef) : List Char :=
  if r.rowAbs then refChars nm r
  else
    sheetQualifier nm r ++ (if r.colAbs then ['$'] else []) ++ r.col ++
      renderNat (parseNat r.digits + shifts (parseNat r.digits))

/-- `re.sub` over an anchored matcher: try the pattern at every position from
left to right, replacing non-overlapping matches. -/
def subRefs (try_ : List Char → Option (SheetRef × List Char))
    (repl : SheetRef → List Char) : Nat → List Char → List Char
  | 0, cs => cs
  | _ + 1, [] => []
  | fuel + 1, c :: rest =>
    match try_ (c :: rest) with
    | some (r, after) => repl r ++ subRefs try_ repl fuel after
    | none => c :: subRefs try_ repl fuel rest

/-- `update_formula_with_shifts` (src/v1.py:188-231); the cumulative-shift
dict is read only through `get(row, 0)` and is passed as that function. -/
def update_formula_with_shifts (formula : String) (target_sheet_name : String)
    (cumulative_shifts : Nat → Nat) : String :=
  ⟨subRefs (tryMatchF target_sheet_name.data)
    (replaceRef target_sheet_name.data cumulative_shifts)
    formula.data.length formula.data⟩

/-- `update_hyperlink_with_shifts` (src/v1.py:234-273): the same pattern with
an optional leading `#`. -/
def update_hyperlink_with_shifts (hyperlink_target : String)
    (target_sheet_name : String) (cumulative_shifts : Nat → Nat) : String :=
  ⟨subRefs (tryMatchH target_sheet_name.data)
    (replaceRef target_sheet_name.data cumulative_shifts)
    hyperlink_target.data.length hyperlink_target.data⟩

/-- Every match of the formula pattern in the text carries an absolute-row
marker. -/
def allRowAbs (nm : List Char) : Nat → List Char → Bool
  | 0, _ => true
  | _ + 1, [] => true
  | fuel + 1, c :: rest =>
    match tryMatchF nm (c :: rest) with
    | some (r, after) => r.rowAbs && allRowAbs nm fuel after
    | none => allRowAbs nm fuel rest

/-- Every match of the formula pattern has canonical row digits: rendering the
parsed row reproduces the digit text (no leading zeros). -/
def allCanonicalRows (nm : List Char) : Nat → List Char → Bool
  | 0, _ => true
  | _ + 1, [] => true
  | fuel + 1, c :: rest =>
    match tryMatchF nm (c :: rest) with
    | some (r, after) =>
      (renderNat (parseNat r.digits) == r.digits) && allCanonicalRows nm fuel after
    | none => allCanonicalRows nm fuel rest

/-- Scan of `re.sub` over `(?<!\$)([A-Z]+)(?<!\$)(\d+)` in
`adjust_formula_references`: at each position a match is attempted — the
lookbehind inspects the previous character (the scanner carries it), and the
second lookbehind, standing between the letters and the digits, always holds
because the character before the digits is the last letter.  On success the
match is consumed whole and the row digits are replaced by
`row + (target_row - source_row)`; otherwise the scan advances one character. -/
def adjAux (diff : Int) : Nat → Option Char → List Char → List Char
  | 0, _, cs => cs
  | _ + 1, _, [] => []
  | fuel + 1, prev, c :: rest =>
    if isUpperAZ c = true ∧ prev ≠ some '$' then
      if ((rest.dropWhile isUpperAZ).takeWhile isDigit09) = [] then
        c :: adjAux diff fuel (some c) rest
      else
        (c :: rest.takeWhile isUpperAZ) ++
          (renderInt ((parseNat ((rest.dropWhile isUpperAZ).takeWhile isDigit09) : Int) + diff) ++
            adjAux diff fuel
              (some (((rest.dropWhile isUpperAZ).takeWhile isDigit09).getLastD '0'))
              ((rest.dropWhile isUpperAZ).dropWhile isDigit09))
    else c :: adjAux diff fuel (some c) rest

/-- `adjust_formula_references` (src/v1.py:87-124). -/
def adjust_formula_references (formula : String) (source_row target_row : Nat) : String :=
  if (target_row : Int) - (source_row : Int) = 0 then formula
  else
    ⟨adjAux ((target_row : Int) - (source_row : Int))
      formula.data.length none formula.data⟩

/-- Executable side condition for the round-trip law of
`adjust_formula_references`: every matched reference has canonical row digits
and its shifted row stays at least 1. -/
def adjOk (diff : Int) : Nat → Option Char → List Char → Bool
  | 0, _, _ => true
  | _ + 1, _, [] => true
  | fuel + 1, prev, c :: rest =>
    if isUpperAZ c = true ∧ prev ≠ some '$' then
      if ((rest.dropWhile isUpperAZ).takeWhile isDigit09) = [] then
        adjOk diff fuel (some c) rest
      else
        (renderNat (parseNat ((rest.dropWhile isUpperAZ).takeWhile isDigit09)) ==
            (rest.dropWhile isUpperAZ).takeWhile isDigit09) &&
          decide (1 ≤ (parseNat ((rest.dropWhile isUpperAZ).takeWhile isDigit09) : Int) + diff) &&
          adjOk diff fuel
            (some (((rest.dropWhile isUpperAZ).takeWhile isDigit09).getLastD '0'))
            ((rest.dropWhile isUpperAZ).dropWhile isDigit09)
    else adjOk diff fuel (some c) rest

/-! ### Claim C4 -/

/-- Counterexample to claim C4 as stated: `$A5` carries an absolute-column
marker and a relative row, so the claim requires the row shift `5 → 8`; the
code's lookbehind rejects any match whose first letter is preceded by `$` and
returns the formula unchanged. -/
theorem C4_counterexample :
    adjust_formula_references "=$A5" 5 8 = "=$A5" ∧
    adjust_formula_references "=$A5" 5 8 ≠ "=$A8" := by
  decide

/-! ### Soundness of the reference matcher -/

theorem litMatch_sound : ∀ (p cs rest : List Char),
    litMatch p cs = some rest → p ++ rest = cs
  | [], cs, rest, h => by
      simp only [litMatch, Option.some.injEq] at h
      simp [h]
  | p :: ps, [], rest, h => by simp [litMatch] at h
  | p :: ps, c :: cs, rest, h => by
      simp only [litMatch] at h
      by_cases hpc : p = c
      · rw [if_pos hpc] at h
        have := litMatch_sound ps cs rest h
        simp [hpc, this]
      · rw [if_neg hpc] at h
        exact absurd h (by simp)

theorem tryRefDigits_sound {ca : Bool} {col : List Char} {ra : Bool}
    {cs₃ : List Char} {ca' : Bool} {col' : List Char} {ra' : Bool}
    {ds rest : List Char}
    (h : tryRefDigits ca col ra cs₃ = some ((ca', col', ra', ds), rest)) :
    ca' = ca ∧ col' = col ∧ ra' = ra ∧ ds ++ rest = cs₃ ∧ ds ≠ [] := by
  unfold tryRefDigits at h
  by_cases hds : cs₃.takeWhile isDigit09 = []
  · rw [if_pos hds] at h
    exact absurd h (by simp)
  · rw [if_neg hds] at h
    simp only [Option.some.injEq, Prod.mk.injEq] at h
    obtain ⟨⟨h1, h2, h3, h4⟩, h5⟩ := h
    subst h1; subst h2; subst h3; subst h4; subst h5
    exact ⟨rfl, rfl, rfl, List.takeWhile_append_dropWhile _ _, hds⟩

theorem tryRefRow_sound {ca : Bool} {col : List Char} {cs₂ : List Char}
    {ca' : Bool} {col' : List Char} {ra : Bool} {ds rest : List Char}
    (h : tryRefRow ca col cs₂ = some ((ca', col', ra, ds), rest)) :
    ca' = ca ∧ col' = col ∧
    (if ra then ['$'] else []) ++ ds ++ rest = cs₂ ∧ ds ≠ [] := by
  unfold tryRefRow at h
  by_cases hc : cs₂.head? = some '$'
  · rw [if_pos hc] at h
    obtain ⟨h1, h2, h3, h4, h5⟩ := tryRefDigits_sound h
    subst h3
    obtain ⟨c, cs₃, rfl⟩ : ∃ c cs₃, cs₂ = c :: cs₃ := by
      cases cs₂ with
      | nil => simp at hc
      | cons c cs₃ => exact ⟨c, cs₃, rfl⟩
    simp only [List.head?] at hc
    injection hc with hc
    subst hc
    exact ⟨h1, h2, by simpa using h4, h5⟩
  · rw [if_neg hc] at h
    obtain ⟨h1, h2, h3, h4, h5⟩ := tryRefDigits_sound h
    subst h3
    exact ⟨h1, h2, by simpa using h4, h5⟩

theorem tryRefCol_sound {ca : Bool} {cs₁ : List Char}
    {ca' : Bool} {col : List Char} {ra : Bool} {ds rest : List Char}
    (h : tryRefCol ca cs₁ = some ((ca', col, ra, ds), rest)) :
    ca' = ca ∧ col ++ (if ra then ['$'] else []) ++ ds ++ rest = cs₁ ∧
    col ≠ [] ∧ ds ≠ [] := by
  unfold tryRefCol at h
  by_cases hcol : cs₁.takeWhile isUpperAZ = []
  · rw [if_pos hcol] at h
    exact absurd h (by simp)
  · rw [if_neg hcol] at h
    obtain ⟨h1, h2, h3, h4⟩ := tryRefRow_sound h
    subst h2
    refine ⟨h1, ?_, hcol, h4⟩
    simp only [List.append_assoc] at h3 ⊢
    rw [h3]
    exact List.takeWhile_append_dropWhile _ _

theorem tryRef_sound {cs : List Char} {ca : Bool} {col : List Char} {ra : Bool}
    {ds rest : List Char}
    (h : tryRef cs = some ((ca, col, ra, ds), rest)) :
    (if ca then ['$'] else []) ++ col ++ (if ra then ['$'] else []) ++ ds ++ rest = cs ∧
    col ≠ [] ∧ ds ≠ [] := by
  unfold tryRef at h
  by_cases hc : cs.head? = some '$'
  · rw [if_pos hc] at h
    obtain ⟨h1, h2, h3, h4⟩ := tryRefCol_sound h
    subst h1
    obtain ⟨c, cs', rfl⟩ : ∃ c cs', cs = c :: cs' := by
      cases cs with
      | nil => simp at hc
      | cons c cs' => exact ⟨c, cs', rfl⟩
    simp only [List.head?] at hc
    injection hc with hc
    subst hc
    refine ⟨?_, h3, h4⟩
    simp only [List.tail_cons] at h2
    simp only [List.append_assoc] at h2 ⊢
    simp [h2]
  · rw [if_neg hc] at h
    obtain ⟨h1, h2, h3, h4⟩ := tryRefCol_sound h
    subst h1
    refine ⟨?_, h3, h4⟩
    simp only [List.append_assoc] at h2 ⊢
    simpa using h2

theorem tryMatchUnq_sound {nm cs : List Char} {r : SheetRef} {rest : List Char}
    (h : tryMatchUnq nm cs = some (r, rest)) :
    refChars nm r ++ rest = cs ∧ r.hash = false := by
  unfold tryMatchUnq at h
  cases hlit : litMatch (nm ++ ['!']) cs with
  | none => rw [hlit, Option.none_bind] at h; exact absurd h (by simp)
  | some cs₁ =>
    rw [hlit, Option.some_bind] at h
    cases htr : tryRef cs₁ with
    | none => rw [htr, Option.none_bind] at h; exact absurd h (by simp)
    | some out =>
      rw [htr, Option.some_bind] at h
      obtain ⟨⟨ca, col, ra, ds⟩, rest'⟩ := out
      simp only [Option.some.injEq, Prod.mk.injEq] at h
      obtain ⟨hr, hrest⟩ := h
      subst hr; subst hrest
      obtain ⟨hcons, _, _⟩ := tryRef_sound htr
      have hl := litMatch_sound _ _ _ hlit
      refine ⟨?_, rfl⟩
      calc refChars nm
            { hash := false, quoted := false, colAbs := ca, col := col,
              rowAbs := ra, digits := ds } ++ rest'
          = (nm ++ ['!']) ++
              ((if ca then ['$'] else []) ++ col ++ (if ra then ['$'] else []) ++
                ds ++ rest') := by
            simp [refChars, sheetQualifier, List.append_assoc]
        _ = (nm ++ ['!']) ++ cs₁ := by
            simp only [List.append_assoc] at hcons ⊢
            rw [hcons]
        _ = cs := hl

theorem quotedRef_sound {nm cs : List Char} {r : SheetRef} {rest : List Char}
    (h : quotedRef nm cs = some (r, rest)) :
    refChars nm r ++ rest = cs ∧ r.hash = false := by
  unfold quotedRef at h
  cases hlit : litMatch ('\'' :: (nm ++ ['\'', '!'])) cs with
  | none => rw [hlit, Option.none_bind] at h; exact absurd h (by simp)
  | some cs₁ =>
    rw [hlit, Option.some_bind] at h
    cases htr : tryRef cs₁ with
    | none => rw [htr, Option.none_bind] at h; exact absurd h (by simp)
    | some out =>
      rw [htr, Option.some_bind] at h
      obtain ⟨⟨ca, col, ra, ds⟩, rest'⟩ := out
      simp only [Option.some.injEq, Prod.mk.injEq] at h
      obtain ⟨hr, hrest⟩ := h
      subst hr; subst hrest
      obtain ⟨hcons, _, _⟩ := tryRef_sound htr
      have hl := litMatch_sound _ _ _ hlit
      refine ⟨?_, rfl⟩
      calc refChars nm
            { hash := false, quoted := true, colAbs := ca, col := col,
              rowAbs := ra, digits := ds } ++ rest'
          = ('\'' :: (nm ++ ['\'', '!'])) ++
              ((if ca then ['$'] else []) ++ col ++ (if ra then ['$'] else []) ++
                ds ++ rest') := by
            simp [refChars, sheetQualifier, List.append_assoc]
        _ = ('\'' :: (nm ++ ['\'', '!'])) ++ cs₁ := by
            simp only [List.append_assoc] at hcons ⊢
            rw [hcons]
        _ = cs := hl

theorem tryMatchF_sound {nm cs : List Char} {r : SheetRef} {rest : List Char}
    (h : tryMatchF nm cs = some (r, rest)) :
    refChars nm r ++ rest = cs ∧ r.hash = false := by
  unfold tryMatchF at h
  cases hq : quotedRef nm cs with
  | none => rw [hq, Option.none_orElse] at h; exact tryMatchUnq_sound h
  | some p =>
    rw [hq, Option.some_orElse] at h
    injection h with h
    subst h
    exact quotedRef_sound hq

theorem tryMatchH_sound {nm cs : List Char} {r : SheetRef} {rest : List Char}
    (h : tryMatchH nm cs = some (r, rest)) :
    refChars nm r ++ rest = cs := by
  unfold tryMatchH at h
  by_cases hc : cs.head? = some '#'
  · rw [if_pos hc] at h
    cases hf : tryMatchF nm cs.tail with
    | none =>
      rw [hf, Option.none_bind, Option.none_orElse] at h
      exact (tryMatchF_sound h).1
    | some p =>
      rw [hf, Option.some_bind, Option.some_orElse] at h
      obtain ⟨r', rest'⟩ := p
      simp only [Option.some.injEq, Prod.mk.injEq] at h
      obtain ⟨hr, hrest⟩ := h
      subst hr; subst hrest
      obtain ⟨hcons, hhash⟩ := tryMatchF_sound hf
      obtain ⟨c, cs', rfl⟩ : ∃ c cs', cs = c :: cs' := by
        cases cs with
        | nil => simp at hc
        | cons c cs' => exact ⟨c, cs', rfl⟩
      simp only [List.head?] at hc
      injection hc with hc
      subst hc
      have hrc : refChars nm { r' with hash := true } = '#' :: refChars nm r' := by
        simp [refChars, sheetQualifier, hhash]
      rw [hrc]
      simp only [List.tail_cons] at hcons
      simp [hcons]
  · rw [if_neg hc] at h
    exact (tryMatchF_sound h).1

theorem refChars_ne_nil (nm : List Char) (r : SheetRef) : refChars nm r ≠ [] := by
  simp [refChars, sheetQualifier]

theorem tryMatchF_consumes {nm cs : List Char} {r : SheetRef} {rest : List Char}
    (h : tryMatchF nm cs = some (r, rest)) : rest.length < cs.length := by
  have hcons := (tryMatchF_sound h).1
  have hpos : 0 < (refChars nm r).length :=
    List.length_pos.mpr (refChars_ne_nil nm r)
  have : cs.length = (refChars nm r).length + rest.length := by
    rw [← hcons]; simp
  omega

theorem tryMatchH_consumes {nm cs : List Char} {r : SheetRef} {rest : List Char}
    (h : tryMatchH nm cs = some (r, rest)) : rest.length < cs.length := by
  have hcons := tryMatchH_sound h
  have hpos : 0 < (refChars nm r).length :=
    List.length_pos.mpr (refChars_ne_nil nm r)
  have : cs.length = (refChars nm r).length + rest.length := by
    rw [← hcons]; simp
  omega

theorem replaceRef_of_rowAbs {nm : List Char} {s : Nat → Nat} {r : SheetRef}
    (h : r.rowAbs = true) : replaceRef nm s r = refChars nm r := by
  rw [replaceRef, if_pos h]

theorem replaceRef_zero_of_canonical {nm : List Char} {r : SheetRef}
    (hra : r.rowAbs = false) (hcan : renderNat (parseNat r.digits) = r.digits) :
    replaceRef nm (fun _ => 0) r = refChars nm r := by
  rw [replaceRef, if_neg (by simp [hra]), refChars, hra]
  simp [hcan]

/-! ### Claims C9 and C3 -/

theorem subRefs_id_of_canonical (nm : List Char) :
    ∀ (fuel : Nat) (cs : List Char), cs.length ≤ fuel →
      allCanonicalRows nm fuel cs = true →
      subRefs (tryMatchF nm) (replaceRef nm (fun _ => 0)) fuel cs = cs
  | 0, cs, _, _ => rfl
  | _ + 1, [], _, _ => rfl
  | fuel + 1, c :: rest, hlen, hcan => by
      cases hm : tryMatchF nm (c :: rest) with
      | none =>
        simp only [subRefs, hm]
        simp only [allCanonicalRows, hm] at hcan
        have hlen' : rest.length ≤ fuel := by
          simp only [List.length_cons] at hlen
          omega
        rw [subRefs_id_of_canonical nm fuel rest hlen' hcan]
      | some p =>
        obtain ⟨r, after⟩ := p
        simp only [subRefs, hm]
        simp only [allCanonicalRows, hm, Bool.and_eq_true, beq_iff_eq] at hcan
        obtain ⟨hcanr, hcanrest⟩ := hcan
        obtain ⟨hcons, _⟩ := tryMatchF_sound hm
        have hafter : after.length ≤ fuel := by
          have := tryMatchF_consumes hm
          simp only [List.length_cons] at this hlen
          omega
        have hrep : replaceRef nm (fun _ => 0) r = refChars nm r := by
          by_cases hra : r.rowAbs = true
          · exact replaceRef_of_rowAbs hra
          · exact replaceRef_zero_of_canonical (by simpa using hra) hcanr
        rw [hrep, subRefs_id_of_canonical nm fuel after hafter hcanrest, hcons]

theorem subRefs_id_of_rowAbs (nm : List Char) (shifts : Nat → Nat) :
    ∀ (fuel : Nat) (cs : List Char), cs.length ≤ fuel →
      allRowAbs nm fuel cs = true →
      subRefs (tryMatchF nm) (replaceRef nm shifts) fuel cs = cs
  | 0, cs, _, _ => rfl
  | _ + 1, [], _, _ => rfl
  | fuel + 1, c :: rest, hlen, habs => by
      cases hm : tryMatchF nm (c :: rest) with
      | none =>
        simp only [subRefs, hm]
        simp only [allRowAbs, hm] at habs
        have hlen' : rest.length ≤ fuel := by
          simp only [List.length_cons] at hlen
          omega
        rw [subRefs_id_of_rowAbs nm shifts fuel rest hlen' habs]
      | some p =>
        obtain ⟨r, after⟩ := p
        simp only [subRefs, hm]
        simp only [allRowAbs, hm, Bool.and_eq_true] at habs
        obtain ⟨hra, habsrest⟩ := habs
        obtain ⟨hcons, _⟩ := tryMatchF_sound hm
        have hafter : after.length ≤ fuel := by
          have := tryMatchF_consumes hm
          simp only [List.length_cons] at this hlen
          omega
        rw [replaceRef_of_rowAbs hra,
          subRefs_id_of_rowAbs nm shifts fuel after hafter habsrest, hcons]

/-- Claim C9 (corrected).  Rewriting with an offset map that assigns zero shift
to every row returns the text unchanged, provided every matched reference
writes its row in canonical decimal form (no leading zeros): the rewriter
re-renders the parsed row number, so `B010` would become `B10` even under a
zero shift, see the counterexample. -/
theorem C9_zero_shift_identity (text sheet : String)
    (h : allCanonicalRows sheet.data text.data.length text.data = true) :
    update_formula_with_shifts text sheet (fun _ => 0) = text := by
  obtain ⟨l⟩ := text
  exact congrArg String.mk (subRefs_id_of_canonical sheet.data l.length l (le_refl _) h)

theorem C9_zero_shift_identity_witness :
    update_formula_with_shifts "=Sheet1!B10 + 'Sheet1'!$D$7" "Sheet1" (fun _ => 0) =
      "=Sheet1!B10 + 'Sheet1'!$D$7" :=
  C9_zero_shift_identity "=Sheet1!B10 + 'Sheet1'!$D$7" "Sheet1" (by decide)

/-- Counterexample to claim C9 as stated: a zero-shift rewrite is not the
identity on every text — a matched row written with a leading zero is
re-rendered canonically. -/
theorem C9_counterexample :
    update_formula_with_shifts "=Sheet1!B010" "Sheet1" (fun _ => 0) = "=Sheet1!B10" ∧
    "=Sheet1!B10" ≠ "=Sheet1!B010" := by
  decide

/-- Claim C3 (confirmed).  The Reference Rewriter rewrites each sheet-qualified
match without an absolute-row marker to row `row + offsets(row)`, preserving
the column/row absolute markers and the sheet-qualifier quoting style (the
match is reassembled from its captured qualifier, markers and column), and any
reference carrying an absolute-row marker is returned byte-identical — texts
all of whose matches are row-absolute pass through unchanged, and the spec's
scenario holds: `=Sheet1!B10` with `offsets(10)=3` becomes `=Sheet1!B13` while
`=Sheet1!B$10` is unchanged. -/
theorem C3_reference_rewriter :
    (∀ (text sheet : String) (shifts : Nat → Nat),
      allRowAbs sheet.data text.data.length text.data = true →
      update_formula_with_shifts text sheet shifts = text) ∧
    update_formula_with_shifts "=Sheet1!B10" "Sheet1"
      (fun r => if r = 10 then 3 else 0) = "=Sheet1!B13" ∧
    update_formula_with_shifts "=Sheet1!B$10" "Sheet1"
      (fun r => if r = 10 then 3 else 0) = "=Sheet1!B$10" ∧
    (∀ (nm : List Char) (shifts : Nat → Nat) (r : SheetRef), r.rowAbs = true →
      replaceRef nm shifts r = refChars nm r) ∧
    (∀ (nm : List Char) (shifts : Nat → Nat) (r : SheetRef), r.rowAbs = false →
      replaceRef nm shifts r =
        sheetQualifier nm r ++ ((if r.colAbs then ['$'] else []) ++ (r.col ++
          renderNat (parseNat r.digits + shifts (parseNat r.digits))))) := by
  refine ⟨?_, by decide, by decide, ?_, ?_⟩
  · intro text sheet shifts h
    obtain ⟨l⟩ := text
    exact congrArg String.mk (subRefs_id_of_rowAbs sheet.data shifts l.length l (le_refl _) h)
  · intro nm shifts r h
    exact replaceRef_of_rowAbs h
  · intro nm shifts r h
    rw [replaceRef, if_neg (by simp [h])]
    simp [List.append_assoc]

theorem C3_reference_rewriter_witness :
    update_formula_with_shifts "=Sheet1!C$7 + 'Sheet1'!$D$8" "Sheet1" (fun _ => 9) =
      "=Sheet1!C$7 + 'Sheet1'!$D$8" :=
  C3_reference_rewriter.1 "=Sheet1!C$7 + 'Sheet1'!$D$8" "Sheet1" (fun _ => 9) (by decide)

/-! ### Claim C10: the hyperlink rewriter computes the same function -/

theorem quotedRef_shape {nm cs : List Char} {r : SheetRef} {rest : List Char}
    (h : quotedRef nm cs = some (r, rest)) :
    ∃ u, ('\'' :: (nm ++ ['\'', '!'])) ++ u = cs := by
  unfold quotedRef at h
  cases hlit : litMatch ('\'' :: (nm ++ ['\'', '!'])) cs with
  | none => rw [hlit, Option.none_bind] at h; exact absurd h (by simp)
  | some cs₁ => exact ⟨cs₁, litMatch_sound _ _ _ hlit⟩

theorem tryMatchUnq_shape {nm cs : List Char} {r : SheetRef} {rest : List Char}
    (h : tryMatchUnq nm cs = some (r, rest)) :
    ∃ u, (nm ++ ['!']) ++ u = cs := by
  unfold tryMatchUnq at h
  cases hlit : litMatch (nm ++ ['!']) cs with
  | none => rw [hlit, Option.none_bind] at h; exact absurd h (by simp)
  | some cs₁ => exact ⟨cs₁, litMatch_sound _ _ _ hlit⟩

theorem tryMatchF_shape {nm cs : List Char} {r : SheetRef} {rest : List Char}
    (h : tryMatchF nm cs = some (r, rest)) :
    (∃ u, ('\'' :: (nm ++ ['\'', '!'])) ++ u = cs) ∨
    (∃ u, (nm ++ ['!']) ++ u = cs) := by
  unfold tryMatchF at h
  cases hq : quotedRef nm cs with
  | none => rw [hq, Option.none_orElse] at h; exact Or.inr (tryMatchUnq_shape h)
  | some p =>
    rw [hq, Option.some_orElse] at h
    injection h with h
    subst h
    exact Or.inl (quotedRef_shape hq)

/-- A list of the shape `w ++ [x] ++ t` cannot also have the shape
`u ++ w ++ z` when `x` does not occur in `u`: the overlap would force the
period `u` into `w` indefinitely. -/
theorem periodic_overlap (x : Char) (u : List Char) (hx : x ∉ u) (hu : u ≠ []) :
    ∀ (n : Nat) (w z t : List Char), w.length ≤ n →
      (w ++ [x]) ++ t ≠ u ++ (w ++ z) := by
  intro n
  induction n with
  | zero =>
    intro w z t hlen heq
    have hw : w = [] := List.length_eq_zero.mp (Nat.le_zero.mp hlen)
    subst hw
    cases u with
    | nil => exact hu rfl
    | cons a u' =>
      simp only [List.nil_append, List.cons_append] at heq
      injection heq with h1 _
      exact hx (h1 ▸ List.mem_cons_self a u')
  | succ n ih =>
    intro w z t hlen heq
    by_cases hcase : w.length + 1 ≤ u.length
    · have hL : List.take (w.length + 1) ((w ++ [x]) ++ t) = w ++ [x] := by
        rw [List.take_append_eq_append_take,
          List.take_of_length_le (by simp : (w ++ [x]).length ≤ w.length + 1),
          show w.length + 1 - (w ++ [x]).length = 0 by simp]
        simp
      have hR : List.take (w.length + 1) (u ++ (w ++ z)) = u.take (w.length + 1) := by
        rw [List.take_append_eq_append_take,
          show w.length + 1 - u.length = 0 by omega]
        simp
      have htake : w ++ [x] = u.take (w.length + 1) := by
        rw [← hL, heq]
        exact hR
      have hxmem : x ∈ u.take (w.length + 1) := by
        rw [← htake]; simp
      exact hx (List.take_subset _ _ hxmem)
    · push_neg at hcase
      have hcase' : u.length ≤ w.length := by omega
      have hL : List.take u.length ((w ++ [x]) ++ t) = w.take u.length := by
        rw [List.take_append_eq_append_take,
          show u.length - (w ++ [x]).length = 0 by simp; omega,
          List.take_append_eq_append_take,
          show u.length - w.length = 0 by omega]
        simp
      have hR : List.take u.length (u ++ (w ++ z)) = u := by
        rw [List.take_append_eq_append_take, List.take_length,
          show u.length - u.length = 0 by omega]
        simp
      have htake : w.take u.length = u := by
        rw [← hL, heq]
        exact hR
      have hw : w = u ++ w.drop u.length := by
        conv_lhs => rw [← List.take_append_drop u.length w]
        rw [htake]
      have heq' : (w.drop u.length ++ [x]) ++ t = u ++ (w.drop u.length ++ z) := by
        refine List.append_cancel_left (@id (u ++ _ = u ++ _) ?_)
        calc u ++ ((w.drop u.length ++ [x]) ++ t)
            = ((u ++ w.drop u.length) ++ [x]) ++ t := by simp [List.append_assoc]
          _ = (w ++ [x]) ++ t := by rw [← hw]
          _ = u ++ (w ++ z) := heq
          _ = u ++ (u ++ (w.drop u.length ++ z)) := by
              conv_lhs => rw [hw]
              simp [List.append_assoc]
      have hulen : 1 ≤ u.length := by
        cases u with
        | nil => exact absurd rfl hu
        | cons a u' => simp
      exact ih (w.drop u.length) z t (by simp; omega) heq'

/-- The formula pattern cannot match both at a position and at the position
directly after a leading `#` there. -/
theorem tryMatchF_no_hash_overlap {nm cs' : List Char}
    {p q : SheetRef × List Char}
    (h1 : tryMatchF nm ('#' :: cs') = some p)
    (h2 : tryMatchF nm cs' = some q) : False := by
  obtain ⟨r1, rest1⟩ := p
  obtain ⟨r2, rest2⟩ := q
  rcases tryMatchF_shape h1 with ⟨u, hu⟩ | ⟨u, hu⟩
  · simp only [List.cons_append] at hu
    injection hu with hh _
    exact absurd hh (by decide)
  · cases nm with
    | nil =>
      simp only [List.nil_append, List.cons_append] at hu
      injection hu with hh _
      exact absurd hh (by decide)
    | cons n0 nr =>
      simp only [List.cons_append] at hu
      injection hu with hh htail
      subst hh
      rcases tryMatchF_shape h2 with ⟨u₂, hu₂⟩ | ⟨u₂, hu₂⟩
      · have heq : (nr ++ ['!']) ++ u = ['\'', '#'] ++ (nr ++ ('\'' :: '!' :: u₂)) := by
          rw [htail, ← hu₂]
          simp [List.append_assoc]
        exact periodic_overlap '!' ['\'', '#'] (by decide) (by decide)
          nr.length nr ('\'' :: '!' :: u₂) u (le_refl _) heq
      · have heq : (nr ++ ['!']) ++ u = ['#'] ++ (nr ++ ('!' :: u₂)) := by
          rw [htail, ← hu₂]
          simp [List.append_assoc]
        exact periodic_overlap '!' ['#'] (by decide) (by decide)
          nr.length nr ('!' :: u₂) u (le_refl _) heq

theorem litMatch_nil_of_ne {p : List Char} (h : p ≠ []) : litMatch p [] = none := by
  cases p with
  | nil => exact absurd rfl h
  | cons a ps => rfl

theorem tryMatchF_nil (nm : List Char) : tryMatchF nm [] = none := by
  unfold tryMatchF quotedRef tryMatchUnq
  rw [litMatch_nil_of_ne (p := '\'' :: (nm ++ ['\'', '!'])) (by simp),
    litMatch_nil_of_ne (p := nm ++ ['!']) (by simp)]
  rfl

theorem replaceRef_hash {nm : List Char} {shifts : Nat → Nat} {r : SheetRef}
    (h : r.hash = false) :
    replaceRef nm shifts { r with hash := true } = '#' :: replaceRef nm shifts r := by
  by_cases hra : r.rowAbs = true <;>
    simp [replaceRef, refChars, sheetQualifier, h, hra]

theorem subRefs_fuel_inv (try_ : List Char → Option (SheetRef × List Char))
    (repl : SheetRef → List Char)
    (hcons : ∀ cs r after, try_ cs = some (r, after) → after.length < cs.length) :
    ∀ (f g : Nat) (cs : List Char), cs.length ≤ f → cs.length ≤ g →
      subRefs try_ repl f cs = subRefs try_ repl g cs
  | 0, g, cs, hf, _ => by
      have hcs : cs = [] := List.length_eq_zero.mp (Nat.le_zero.mp hf)
      subst hcs
      cases g <;> rfl
  | f + 1, 0, cs, _, hg => by
      have hcs : cs = [] := List.length_eq_zero.mp (Nat.le_zero.mp hg)
      subst hcs
      rfl
  | _ + 1, _ + 1, [], _, _ => rfl
  | f + 1, g + 1, c :: rest, hf, hg => by
      cases hm : try_ (c :: rest) with
      | none =>
        simp only [subRefs, hm]
        rw [subRefs_fuel_inv try_ repl hcons f g rest
          (by simp only [List.length_cons] at hf; omega)
          (by simp only [List.length_cons] at hg; omega)]
      | some p =>
        obtain ⟨r, after⟩ := p
        simp only [subRefs, hm]
        have hlt := hcons _ _ _ hm
        simp only [List.length_cons] at hlt hf hg
        rw [subRefs_fuel_inv try_ repl hcons f g after (by omega) (by omega)]

theorem subRefs_H_eq_F (nm : List Char) (shifts : Nat → Nat) :
    ∀ (fuel : Nat) (cs : List Char), cs.length ≤ fuel →
      subRefs (tryMatchH nm) (replaceRef nm shifts) fuel cs =
        subRefs (tryMatchF nm) (replaceRef nm shifts) fuel cs
  | 0, cs, _ => rfl
  | _ + 1, [], _ => rfl
  | fuel + 1, c :: rest, hlen => by
      by_cases hc : c = '#'
      · subst hc
        cases hf : tryMatchF nm rest with
        | some p =>
          obtain ⟨r, after⟩ := p
          have hH : tryMatchH nm ('#' :: rest) = some ({ r with hash := true }, after) := by
            rw [tryMatchH, if_pos (by simp)]
            simp only [List.tail_cons, hf, Option.some_bind, Option.some_orElse]
          have hF : tryMatchF nm ('#' :: rest) = none := by
            cases hF2 : tryMatchF nm ('#' :: rest) with
            | none => rfl
            | some q => exact (tryMatchF_no_hash_overlap hF2 hf).elim
          simp only [subRefs, hH, hF]
          obtain ⟨_, hhash⟩ := tryMatchF_sound hf
          rw [replaceRef_hash hhash]
          cases rest with
          | nil => rw [tryMatchF_nil] at hf; exact absurd hf (by simp)
          | cons c₂ rest₂ =>
            cases fuel with
            | zero => simp only [List.length_cons] at hlen; omega
            | succ fuel₂ =>
              simp only [subRefs, hf, List.cons_append, List.nil_append]
              have hlen2 : after.length ≤ fuel₂ := by
                have := tryMatchF_consumes hf
                simp only [List.length_cons] at this hlen
                omega
              rw [subRefs_H_eq_F nm shifts (fuel₂ + 1) after (by omega)]
              rw [subRefs_fuel_inv (tryMatchF nm) (replaceRef nm shifts)
                (fun cs r after h => tryMatchF_consumes h) (fuel₂ + 1) fuel₂ after
                (by omega) hlen2]
        | none =>
          have hH : tryMatchH nm ('#' :: rest) = tryMatchF nm ('#' :: rest) := by
            rw [tryMatchH, if_pos (by simp)]
            simp only [List.tail_cons, hf, Option.none_bind, Option.none_orElse]
          cases hm : tryMatchF nm ('#' :: rest) with
          | none =>
            simp only [subRefs, hH, hm]
            rw [subRefs_H_eq_F nm shifts fuel rest
              (by simp only [List.length_cons] at hlen; omega)]
          | some p =>
            obtain ⟨r, after⟩ := p
            simp only [subRefs, hH, hm]
            rw [subRefs_H_eq_F nm shifts fuel after
              (by have := tryMatchF_consumes hm
                  simp only [List.length_cons] at this hlen
                  omega)]
      · have hH : tryMatchH nm (c :: rest) = tryMatchF nm (c :: rest) := by
          rw [tryMatchH, if_neg (by simp [hc])]
        cases hm : tryMatchF nm (c :: rest) with
        | none =>
          simp only [subRefs, hH, hm]
          rw [subRefs_H_eq_F nm shifts fuel rest
            (by simp only [List.length_cons] at hlen; omega)]
        | some p =>
          obtain ⟨r, after⟩ := p
          simp only [subRefs, hH, hm]
          rw [subRefs_H_eq_F nm shifts fuel after
            (by have := tryMatchF_consumes hm
                simp only [List.length_cons] at this hlen
                omega)]

/-- Claim C10 (confirmed).  The formula-body rewriter and the hyperlink-target
rewriter compute the same function: the hyperlink pattern's optional leading
`#` is either consumed as part of the match and copied verbatim into the
qualifier, or left in place and copied by the scan — the output string is the
same either way. -/
theorem C10_hyperlink_equals_formula (s nm : String) (shifts : Nat → Nat) :
    update_hyperlink_with_shifts s nm shifts = update_formula_with_shifts s nm shifts := by
  obtain ⟨l⟩ := s
  exact congrArg String.mk (subRefs_H_eq_F nm.data shifts l.length l (le_refl _))

/-! ### Decimal rendering and parsing -/

theorem digitVal_digitChar {r : Nat} (h : r < 10) : digitVal (digitChar r) = r := by
  interval_cases r <;> rfl

theorem isDigit09_digitChar {r : Nat} (h : r < 10) : isDigit09 (digitChar r) = true := by
  interval_cases r <;> rfl

theorem isUpperAZ_eq_false_of_isDigit09 {c : Char} (h : isDigit09 c = true) :
    isUpperAZ c = false := by
  simp only [isDigit09, Bool.and_eq_true, decide_eq_true_eq] at h
  simp only [isUpperAZ, Bool.and_eq_false_iff, decide_eq_false_iff_not]
  left
  omega

theorem isDigit09_ne_dollar {c : Char} (h : isDigit09 c = true) : c ≠ '$' := by
  intro hc
  subst hc
  exact absurd h (by decide)

theorem renderNatAux_congr :
    ∀ (n : Nat), (∀ (f g : Nat), n < f → n < g → renderNatAux f n = renderNatAux g n) := by
  intro n
  induction n using Nat.strong_induction_on with
  | _ n ih =>
    intro f g hf hg
    cases f with
    | zero => omega
    | succ f' =>
      cases g with
      | zero => omega
      | succ g' =>
        rw [renderNatAux, renderNatAux]
        by_cases h10 : n < 10
        · rw [if_pos h10, if_pos h10]
        · have hdiv : n / 10 < n := Nat.div_lt_self (by omega) (by omega)
          rw [if_neg h10, if_neg h10, ih (n / 10) hdiv f' g' (by omega) (by omega)]

theorem renderNat_lt10 {n : Nat} (h : n < 10) : renderNat n = [digitChar n] := by
  rw [renderNat, renderNatAux, if_pos h]

theorem renderNat_ge10 {n : Nat} (h : 10 ≤ n) :
    renderNat n = renderNat (n / 10) ++ [digitChar (n % 10)] := by
  rw [renderNat, renderNatAux, if_neg (by omega)]
  congr 1
  exact renderNatAux_congr (n / 10) n (n / 10 + 1)
    (Nat.div_lt_self (by omega) (by omega)) (by omega)

theorem parseNat_append_digit (ds : List Char) (c : Char) :
    parseNat (ds ++ [c]) = 10 * parseNat ds + digitVal c := by
  rw [parseNat, parseNat, List.foldl_append]
  rfl

theorem parseNat_renderNat (n : Nat) : parseNat (renderNat n) = n := by
  induction n using Nat.strong_induction_on with
  | _ n ih =>
    by_cases h10 : n < 10
    · rw [renderNat_lt10 h10]
      show parseNat [digitChar n] = n
      rw [parseNat]
      simp only [List.foldl_cons, List.foldl_nil]
      rw [Nat.mul_zero, Nat.zero_add]
      exact digitVal_digitChar h10
    · rw [renderNat_ge10 (by omega), parseNat_append_digit,
        ih (n / 10) (Nat.div_lt_self (by omega) (by omega)),
        digitVal_digitChar (Nat.mod_lt _ (by omega))]
      omega

theorem renderNat_ne_nil (n : Nat) : renderNat n ≠ [] := by
  by_cases h10 : n < 10
  · rw [renderNat_lt10 h10]; simp
  · rw [renderNat_ge10 (by omega)]; simp

theorem renderNat_digits (n : Nat) : ∀ c ∈ renderNat n, isDigit09 c = true := by
  induction n using Nat.strong_induction_on with
  | _ n ih =>
    intro c hc
    by_cases h10 : n < 10
    · rw [renderNat_lt10 h10] at hc
      simp only [List.mem_singleton] at hc
      subst hc
      exact isDigit09_digitChar h10
    · rw [renderNat_ge10 (by omega)] at hc
      rcases List.mem_append.mp hc with h | h
      · exact ih (n / 10) (Nat.div_lt_self (by omega) (by omega)) c h
      · simp only [List.mem_singleton] at h
        subst h
        exact isDigit09_digitChar (Nat.mod_lt _ (by omega))

/-! ### takeWhile and dropWhile helpers -/

theorem takeWhile_append_all {p : Char → Bool} :
    ∀ {l₁ : List Char} (l₂ : List Char), (∀ a ∈ l₁, p a = true) →
      (l₁ ++ l₂).takeWhile p = l₁ ++ l₂.takeWhile p
  | [], l₂, _ => rfl
  | a :: l₁, l₂, h => by
      have ha := h a (by simp)
      have hall : ∀ x ∈ l₁, p x = true := fun x hx => h x (List.mem_cons_of_mem a hx)
      have hrec := takeWhile_append_all l₂ hall
      simp [List.takeWhile_cons, ha, hrec]

theorem dropWhile_append_all {p : Char → Bool} :
    ∀ {l₁ : List Char} (l₂ : List Char), (∀ a ∈ l₁, p a = true) →
      (l₁ ++ l₂).dropWhile p = l₂.dropWhile p
  | [], l₂, _ => rfl
  | a :: l₁, l₂, h => by
      have ha := h a (by simp)
      have hall : ∀ x ∈ l₁, p x = true := fun x hx => h x (List.mem_cons_of_mem a hx)
      have hrec := dropWhile_append_all l₂ hall
      simp [List.dropWhile_cons, ha, hrec]

theorem takeWhile_eq_nil_of_head {p : Char → Bool} :
    ∀ {l : List Char}, (∀ c, l.head? = some c → p c = false) → l.takeWhile p = []
  | [], _ => rfl
  | c :: l, h => by
      simp [List.takeWhile_cons, h c rfl]

theorem dropWhile_eq_self_of_head {p : Char → Bool} :
    ∀ {l : List Char}, (∀ c, l.head? = some c → p c = false) → l.dropWhile p = l
  | [], _ => rfl
  | c :: l, h => by
      simp [List.dropWhile_cons, h c rfl]

theorem head_not_of_takeWhile_nil {p : Char → Bool} :
    ∀ {l : List Char}, l.takeWhile p = [] → ∀ c, l.head? = some c → p c = false
  | [], _, c, h => by simp at h
  | a :: l, ht, c, h => by
      simp only [List.head?_cons, Option.some.injEq] at h
      subst h
      simp only [List.takeWhile_cons] at ht
      by_cases hp : p a = true
      · rw [hp] at ht; simp at ht
      · simpa using hp

theorem head_dropWhile_not {p : Char → Bool} :
    ∀ (l : List Char) {c : Char}, (l.dropWhile p).head? = some c → p c = false := by
  intro l
  induction l with
  | nil => intro c h; simp [List.dropWhile] at h
  | cons a l ih =>
    intro c h
    rw [List.dropWhile_cons] at h
    by_cases ha : p a = true
    · simp only [ha, if_true] at h
      exact ih h
    · have ha' : p a = false := by simpa using ha
      simp only [ha'] at h
      simp only [Bool.false_eq_true, if_false, List.head?_cons, Option.some.injEq] at h
      subst h
      exact ha'

theorem getLastD_mem_of_ne_nil {l : List Char} (d : Char) (h : l ≠ []) :
    l.getLastD d ∈ l := by
  rw [List.getLastD_eq_getLast?, List.getLast?_eq_getLast_of_ne_nil h]
  simp only [Option.getD_some]
  exact List.getLast_mem h

/-! ### Round trip of the relative adjuster -/

theorem renderInt_ofNat (n : Nat) : renderInt (n : Int) = renderNat n := rfl

theorem adjAux_nil (d : Int) (fuel : Nat) (p : Option Char) : adjAux d fuel p [] = [] := by
  cases fuel <;> rfl

theorem adjAux_else (d : Int) (f : Nat) (p : Option Char) (c : Char) (rest : List Char)
    (h : ¬(isUpperAZ c = true ∧ p ≠ some '$')) :
    adjAux d (f + 1) p (c :: rest) = c :: adjAux d f (some c) rest := by
  simp only [adjAux]
  rw [if_neg h]

theorem adjAux_noDigits (d : Int) (f : Nat) (p : Option Char) (c : Char) (rest : List Char)
    (h : isUpperAZ c = true ∧ p ≠ some '$')
    (hds : (rest.dropWhile isUpperAZ).takeWhile isDigit09 = []) :
    adjAux d (f + 1) p (c :: rest) = c :: adjAux d f (some c) rest := by
  simp only [adjAux]
  rw [if_pos h, if_pos hds]

theorem adjAux_digits (d : Int) (f : Nat) (p : Option Char) (c : Char) (rest : List Char)
    (h : isUpperAZ c = true ∧ p ≠ some '$')
    (hds : ¬((rest.dropWhile isUpperAZ).takeWhile isDigit09 = [])) :
    adjAux d (f + 1) p (c :: rest) =
      (c :: rest.takeWhile isUpperAZ) ++
        (renderInt ((parseNat ((rest.dropWhile isUpperAZ).takeWhile isDigit09) : Int) + d) ++
          adjAux d f (some (((rest.dropWhile isUpperAZ).takeWhile isDigit09).getLastD '0'))
            ((rest.dropWhile isUpperAZ).dropWhile isDigit09)) := by
  simp only [adjAux]
  rw [if_pos h, if_neg hds]

theorem adjOk_else (d : Int) (f : Nat) (p : Option Char) (c : Char) (rest : List Char)
    (h : ¬(isUpperAZ c = true ∧ p ≠ some '$')) :
    adjOk d (f + 1) p (c :: rest) = adjOk d f (some c) rest := by
  simp only [adjOk]
  rw [if_neg h]

theorem adjOk_noDigits (d : Int) (f : Nat) (p : Option Char) (c : Char) (rest : List Char)
    (h : isUpperAZ c = true ∧ p ≠ some '$')
    (hds : (rest.dropWhile isUpperAZ).takeWhile isDigit09 = []) :
    adjOk d (f + 1) p (c :: rest) = adjOk d f (some c) rest := by
  simp only [adjOk]
  rw [if_pos h, if_pos hds]

theorem adjOk_digits (d : Int) (f : Nat) (p : Option Char) (c : Char) (rest : List Char)
    (h : isUpperAZ c = true ∧ p ≠ some '$')
    (hds : ¬((rest.dropWhile isUpperAZ).takeWhile isDigit09 = [])) :
    adjOk d (f + 1) p (c :: rest) =
      ((renderNat (parseNat ((rest.dropWhile isUpperAZ).takeWhile isDigit09)) ==
          (rest.dropWhile isUpperAZ).takeWhile isDigit09) &&
        decide (1 ≤ (parseNat ((rest.dropWhile isUpperAZ).takeWhile isDigit09) : Int) + d) &&
        adjOk d f (some (((rest.dropWhile isUpperAZ).takeWhile isDigit09).getLastD '0'))
          ((rest.dropWhile isUpperAZ).dropWhile isDigit09)) := by
  simp only [adjOk]
  rw [if_pos h, if_neg hds]

theorem adjAux_head (d : Int) :
    ∀ (fuel : Nat) (p : Option Char) (cs : List Char),
      (adjAux d fuel p cs).head? = cs.head?
  | 0, _, _ => rfl
  | _ + 1, _, [] => rfl
  | f + 1, p, c :: rest => by
    by_cases h : isUpperAZ c = true ∧ p ≠ some '$'
    · by_cases hds : (rest.dropWhile isUpperAZ).takeWhile isDigit09 = []
      · rw [adjAux_noDigits d f p c rest h hds]
        rfl
      · rw [adjAux_digits d f p c rest h hds]
        rfl
    · rw [adjAux_else d f p c rest h]
      rfl

/-! ### Claim C4 -/

/-- Claim C4 (corrected).  For every formula, every source row `s` and every
destination row `d`, the Relative-Formula Adjuster adds `d - s` to the row of
every reference of shape letters-then-digits whose leading letter is not
directly preceded by `$`, and copies every other character unchanged — stated
as a complete case analysis of the scan at an arbitrary position (arbitrary
fuel, preceding character and remaining input): (1) at a letter not preceded
by `$` and followed, after the letter run, by digits, the whole reference is
consumed and re-emitted with the row shifted by `d - s`; (2) at a position
whose preceding character is `$`, the lookbehind blocks the match and the
character is copied — so, contrary to the claim, a reference with an
absolute-column marker and a single-letter column is NOT row-shifted; (3) at a
non-letter the character is copied; (4) at a letter whose run is not followed
by digits (e.g. an absolute-row reference `A$5`) the letter is copied
unchanged. -/
theorem C4_relative_adjuster :
    (∀ (s d : Nat) (fuel : Nat) (p : Option Char) (c : Char) (rest : List Char),
        isUpperAZ c = true ∧ p ≠ some '$' →
        (rest.dropWhile isUpperAZ).takeWhile isDigit09 ≠ [] →
        adjAux ((d : Int) - (s : Int)) (fuel + 1) p (c :: rest) =
          (c :: rest.takeWhile isUpperAZ) ++
            (renderInt
                ((parseNat ((rest.dropWhile isUpperAZ).takeWhile isDigit09) : Int) +
                  ((d : Int) - (s : Int))) ++
              adjAux ((d : Int) - (s : Int)) fuel
                (some (((rest.dropWhile isUpperAZ).takeWhile isDigit09).getLastD '0'))
                ((rest.dropWhile isUpperAZ).dropWhile isDigit09))) ∧
    (∀ (s d : Nat) (fuel : Nat) (c : Char) (rest : List Char),
        adjAux ((d : Int) - (s : Int)) (fuel + 1) (some '$') (c :: rest) =
          c :: adjAux ((d : Int) - (s : Int)) fuel (some c) rest) ∧
    (∀ (s d : Nat) (fuel : Nat) (p : Option Char) (c : Char) (rest : List Char),
        isUpperAZ c = false →
        adjAux ((d : Int) - (s : Int)) (fuel + 1) p (c :: rest) =
          c :: adjAux ((d : Int) - (s : Int)) fuel (some c) rest) ∧
    (∀ (s d : Nat) (fuel : Nat) (p : Option Char) (c : Char) (rest : List Char),
        isUpperAZ c = true ∧ p ≠ some '$' →
        (rest.dropWhile isUpperAZ).takeWhile isDigit09 = [] →
        adjAux ((d : Int) - (s : Int)) (fuel + 1) p (c :: rest) =
          c :: adjAux ((d : Int) - (s : Int)) fuel (some c) rest) ∧
    adjust_formula_references "=SUM(A1:A10)" 5 8 = "=SUM(A4:A13)" ∧
    adjust_formula_references "=A$5" 5 8 = "=A$5" ∧
    adjust_formula_references "=$A5" 5 8 = "=$A5" ∧
    adjust_formula_references "=$AB5" 5 8 = "=$AB8" ∧
    adjust_formula_references "=Data!A5" 5 8 = "=Data!A8" := by
  refine ⟨?_, ?_, ?_, ?_, by decide, by decide, by decide, by decide, by decide⟩
  · intro s d fuel p c rest hcond hds
    exact adjAux_digits ((d : Int) - (s : Int)) fuel p c rest hcond hds
  · intro s d fuel c rest
    exact adjAux_else ((d : Int) - (s : Int)) fuel (some '$') c rest (fun hc => hc.2 rfl)
  · intro s d fuel p c rest hU
    exact adjAux_else ((d : Int) - (s : Int)) fuel p c rest
      (fun hc => by rw [hU] at hc; exact Bool.false_ne_true hc.1)
  · intro s d fuel p c rest hcond hds
    exact adjAux_noDigits ((d : Int) - (s : Int)) fuel p c rest hcond hds

/-- Witness for C4: at the concrete scanner state `prev = '='`, input `A5)`
with delta `8 - 5`, the first conjunct rewrites the reference `A5` to `A8`
(the row digits are re-rendered shifted by 3), discharging both hypotheses. -/
theorem C4_relative_adjuster_witness :
    adjAux ((8 : Int) - (5 : Int)) (3 + 1) (some '=') ('A' :: ['5', ')']) =
      ('A' :: List.takeWhile isUpperAZ ['5', ')']) ++
        (renderInt
            ((parseNat ((List.dropWhile isUpperAZ ['5', ')']).takeWhile isDigit09) : Int) +
              ((8 : Int) - (5 : Int))) ++
          adjAux ((8 : Int) - (5 : Int)) 3
            (some (((List.dropWhile isUpperAZ ['5', ')']).takeWhile isDigit09).getLastD '0'))
            ((List.dropWhile isUpperAZ ['5', ')']).dropWhile isDigit09)) :=
  C4_relative_adjuster.1 5 8 3 (some '=') 'A' ['5', ')']
    ⟨by decide, by decide⟩ (by decide)

theorem nodigits_preserved (d : Int) :
    ∀ (fuel : Nat) (p : Option Char) (cs : List Char),
      (cs.dropWhile isUpperAZ).takeWhile isDigit09 = [] →
      ((adjAux d fuel p cs).dropWhile isUpperAZ).takeWhile isDigit09 = [] := by
  intro fuel
  induction fuel with
  | zero => intro p cs h; exact h
  | succ f ih =>
    intro p cs h
    match cs with
    | [] => exact h
    | c :: rest =>
      by_cases hU : isUpperAZ c = true
      · have hrest : (rest.dropWhile isUpperAZ).takeWhile isDigit09 = [] := by
          rw [List.dropWhile_cons, if_pos hU] at h
          exact h
        have hout : adjAux d (f + 1) p (c :: rest) = c :: adjAux d f (some c) rest := by
          by_cases hp : p = some '$'
          · exact adjAux_else d f p c rest (fun hc => hc.2 hp)
          · exact adjAux_noDigits d f p c rest ⟨hU, hp⟩ hrest
        rw [hout, List.dropWhile_cons, if_pos hU]
        exact ih (some c) rest hrest
      · rw [List.dropWhile_cons, if_neg hU, List.takeWhile_cons] at h
        have hD : isDigit09 c = false := by
          by_cases hDc : isDigit09 c = true
          · rw [if_pos hDc] at h
            exact absurd h (by simp)
          · exact eq_false_of_ne_true hDc
        have hout : adjAux d (f + 1) p (c :: rest) = c :: adjAux d f (some c) rest :=
          adjAux_else d f p c rest (fun hc => hU hc.1)
        rw [hout, List.dropWhile_cons, if_neg hU, List.takeWhile_cons,
          if_neg (by simp [hD])]

theorem adjAux_roundtrip (d : Int) :
    ∀ (f₁ : Nat) (cs : List Char) (p₁ p₂ : Option Char) (f₂ : Nat),
      cs.length ≤ f₁ →
      (adjAux d f₁ p₁ cs).length ≤ f₂ →
      (p₁ = some '$' ↔ p₂ = some '$') →
      adjOk d f₁ p₁ cs = true →
      adjAux (-d) f₂ p₂ (adjAux d f₁ p₁ cs) = cs := by
  intro f₁
  induction f₁ with
  | zero =>
    intro cs p₁ p₂ f₂ hlen _ _ _
    have hnil : cs = [] := List.length_eq_zero.mp (Nat.le_zero.mp hlen)
    subst hnil
    exact adjAux_nil _ _ _
  | succ f ih =>
    intro cs p₁ p₂ f₂ hlen hlen₂ hiff hok
    match cs with
    | [] => rw [adjAux_nil, adjAux_nil]
    | c :: rest =>
      by_cases hcond : isUpperAZ c = true ∧ p₁ ≠ some '$'
      · by_cases hds : (rest.dropWhile isUpperAZ).takeWhile isDigit09 = []
        · -- attempted match, but no digits follow the letter run
          have hout := adjAux_noDigits d f p₁ c rest hcond hds
          have hok' : adjOk d f (some c) rest = true := by
            rw [adjOk_noDigits d f p₁ c rest hcond hds] at hok
            exact hok
          have hcond₂ : isUpperAZ c = true ∧ p₂ ≠ some '$' :=
            ⟨hcond.1, fun hp => hcond.2 (hiff.mpr hp)⟩
          have hds₂ : ((adjAux d f (some c) rest).dropWhile isUpperAZ).takeWhile isDigit09 = [] :=
            nodigits_preserved d f (some c) rest hds
          rw [hout] at hlen₂ ⊢
          obtain ⟨g, rfl⟩ : ∃ g, f₂ = g + 1 := by
            cases f₂ with
            | zero => simp at hlen₂
            | succ g => exact ⟨g, rfl⟩
          rw [adjAux_noDigits (-d) g p₂ c (adjAux d f (some c) rest) hcond₂ hds₂]
          congr 1
          apply ih rest (some c) (some c) g
          · simp only [List.length_cons] at hlen; omega
          · simp only [List.length_cons] at hlen₂; omega
          · exact Iff.rfl
          · exact hok'
        · -- full match: letters, digits, replacement
          obtain ⟨L, hL⟩ : ∃ x, rest.takeWhile isUpperAZ = x := ⟨_, rfl⟩
          obtain ⟨ds, hds'⟩ : ∃ x, (rest.dropWhile isUpperAZ).takeWhile isDigit09 = x := ⟨_, rfl⟩
          obtain ⟨tl, htl⟩ : ∃ x, (rest.dropWhile isUpperAZ).dropWhile isDigit09 = x := ⟨_, rfl⟩
          have hdsne : ds ≠ [] := by rw [← hds']; exact hds
          have hLall : ∀ x ∈ L, isUpperAZ x = true := by
            intro x hx; rw [← hL] at hx; exact List.mem_takeWhile_imp hx
          have hdsall : ∀ x ∈ ds, isDigit09 x = true := by
            intro x hx; rw [← hds'] at hx; exact List.mem_takeWhile_imp hx
          have htlhead : ∀ x, tl.head? = some x → isDigit09 x = false := by
            intro x hx; rw [← htl] at hx
            exact head_dropWhile_not _ hx
          have hrest : rest = L ++ (ds ++ tl) := by
            rw [← hL, ← hds', ← htl,
              List.takeWhile_append_dropWhile, List.takeWhile_append_dropWhile]
          have hokm := adjOk_digits d f p₁ c rest hcond hds
          rw [hokm, hds', htl] at hok
          simp only [Bool.and_eq_true, beq_iff_eq, decide_eq_true_eq] at hok
          obtain ⟨⟨hcanon, hpos⟩, hok'⟩ := hok
          obtain ⟨m, hm⟩ : ∃ m : Nat, (parseNat ds : Int) + d = (m : Int) :=
            ⟨((parseNat ds : Int) + d).toNat, (Int.toNat_of_nonneg (by omega)).symm⟩
          have hout := adjAux_digits d f p₁ c rest hcond hds
          rw [hL, hds', htl, hm, renderInt_ofNat] at hout
          obtain ⟨B, hB⟩ : ∃ x, adjAux d f (some (ds.getLastD '0')) tl = x := ⟨_, rfl⟩
          rw [hB] at hout
          obtain ⟨r0, rtl, hr0⟩ := List.exists_cons_of_ne_nil (renderNat_ne_nil m)
          have hr0d : isDigit09 r0 = true := renderNat_digits m r0 (by rw [hr0]; simp)
          have hr0u : isUpperAZ r0 = false := isUpperAZ_eq_false_of_isDigit09 hr0d
          have hBhead : ∀ x, B.head? = some x → isDigit09 x = false := by
            intro x hx
            rw [← hB, adjAux_head] at hx
            exact htlhead x hx
          have hXu : (renderNat m ++ B).takeWhile isUpperAZ = [] := by
            apply takeWhile_eq_nil_of_head
            intro x hx
            rw [hr0, List.cons_append, List.head?_cons] at hx
            cases Option.some.inj hx
            exact hr0u
          have hXud : (renderNat m ++ B).dropWhile isUpperAZ = renderNat m ++ B := by
            apply dropWhile_eq_self_of_head
            intro x hx
            rw [hr0, List.cons_append, List.head?_cons] at hx
            cases Option.some.inj hx
            exact hr0u
          have hXd : (renderNat m ++ B).takeWhile isDigit09 = renderNat m ++ B.takeWhile isDigit09 :=
            takeWhile_append_all B (renderNat_digits m)
          have hBd : B.takeWhile isDigit09 = [] := takeWhile_eq_nil_of_head hBhead
          have hXdd : (renderNat m ++ B).dropWhile isDigit09 = B.dropWhile isDigit09 :=
            dropWhile_append_all B (renderNat_digits m)
          have hBdd : B.dropWhile isDigit09 = B := dropWhile_eq_self_of_head hBhead
          have h1 : (L ++ (renderNat m ++ B)).takeWhile isUpperAZ = L := by
            rw [takeWhile_append_all (renderNat m ++ B) hLall, hXu, List.append_nil]
          have h2 : (L ++ (renderNat m ++ B)).dropWhile isUpperAZ = renderNat m ++ B := by
            rw [dropWhile_append_all (renderNat m ++ B) hLall, hXud]
          rw [hout] at hlen₂ ⊢
          obtain ⟨g, rfl⟩ : ∃ g, f₂ = g + 1 := by
            cases f₂ with
            | zero =>
              rw [List.cons_append] at hlen₂
              simp only [List.length_cons, Nat.le_zero] at hlen₂
              omega
            | succ g => exact ⟨g, rfl⟩
          have hcond₂ : isUpperAZ c = true ∧ p₂ ≠ some '$' :=
            ⟨hcond.1, fun hp => hcond.2 (hiff.mpr hp)⟩
          have hds₂ : ¬(((L ++ (renderNat m ++ B)).dropWhile isUpperAZ).takeWhile isDigit09 = []) := by
            rw [h2, hXd, hBd, List.append_nil]
            exact renderNat_ne_nil m
          rw [List.cons_append,
            adjAux_digits (-d) g p₂ c (L ++ (renderNat m ++ B)) hcond₂ hds₂,
            h1, h2, hXd, hBd, List.append_nil, hXdd, hBdd, parseNat_renderNat]
          have hback : (m : Int) + -d = (parseNat ds : Int) := by omega
          rw [hback, renderInt_ofNat, hcanon]
          have hq : ds.getLastD '0' ≠ '$' :=
            isDigit09_ne_dollar (hdsall _ (getLastD_mem_of_ne_nil '0' hdsne))
          have hq₂ : (renderNat m).getLastD '0' ≠ '$' :=
            isDigit09_ne_dollar
              (renderNat_digits m _ (getLastD_mem_of_ne_nil '0' (renderNat_ne_nil m)))
          have hrec : adjAux (-d) g (some ((renderNat m).getLastD '0')) B = tl := by
            rw [← hB]
            apply ih tl (some (ds.getLastD '0')) (some ((renderNat m).getLastD '0')) g
            · have ha : tl.length ≤ (rest.dropWhile isUpperAZ).length := by
                rw [← htl]; exact (List.dropWhile_sublist isDigit09).length_le
              have hb : (rest.dropWhile isUpperAZ).length ≤ rest.length :=
                (List.dropWhile_sublist isUpperAZ).length_le
              simp only [List.length_cons] at hlen
              omega
            · rw [hB]
              rw [List.cons_append] at hlen₂
              simp only [List.length_cons, List.length_append] at hlen₂
              omega
            · exact iff_of_false (fun hx => hq (Option.some.inj hx))
                (fun hx => hq₂ (Option.some.inj hx))
            · exact hok'
          rw [hrec, List.cons_append, hrest]
      · -- no match attempted at c: the character is copied on both passes
        have hout := adjAux_else d f p₁ c rest hcond
        have hok' : adjOk d f (some c) rest = true := by
          rw [adjOk_else d f p₁ c rest hcond] at hok
          exact hok
        have hcond₂ : ¬(isUpperAZ c = true ∧ p₂ ≠ some '$') := by
          intro h2
          exact hcond ⟨h2.1, fun hp => h2.2 (hiff.mp hp)⟩
        rw [hout] at hlen₂ ⊢
        obtain ⟨g, rfl⟩ : ∃ g, f₂ = g + 1 := by
          cases f₂ with
          | zero => simp at hlen₂
          | succ g => exact ⟨g, rfl⟩
        rw [adjAux_else (-d) g p₂ c (adjAux d f (some c) rest) hcond₂]
        congr 1
        apply ih rest (some c) (some c) g
        · simp only [List.length_cons] at hlen; omega
        · simp only [List.length_cons] at hlen₂; omega
        · exact Iff.rfl
        · exact hok'

/-! ### Claim C8 -/

/-- Claim C8 (corrected).  Adjusting a formula from row `s` to row `t` and then
adjusting the result back from `t` to `s` returns the original formula exactly
— provided every matched reference writes its row in canonical decimal form
(no leading zeros) and its shifted row stays at least 1, the side condition
`adjOk`.  Without it the round trip fails: a shift below row 1 renders a
negative row whose `-` sign no longer matches the pattern on the way back. -/
theorem C8_roundtrip (f : String) (s t : Nat)
    (h : adjOk ((t : Int) - (s : Int)) f.data.length none f.data = true) :
    adjust_formula_references (adjust_formula_references f s t) t s = f := by
  by_cases hz : (t : Int) - (s : Int) = 0
  · rw [adjust_formula_references, if_pos (by omega : (s : Int) - (t : Int) = 0),
      adjust_formula_references, if_pos hz]
  · rw [adjust_formula_references, if_neg (by omega : ¬((s : Int) - (t : Int) = 0)),
      adjust_formula_references, if_neg hz]
    have hneg : (s : Int) - (t : Int) = -((t : Int) - (s : Int)) := by ring
    rw [hneg]
    obtain ⟨l⟩ := f
    show String.mk
        (adjAux (-((t : Int) - (s : Int)))
          (adjAux ((t : Int) - (s : Int)) l.length none l).length none
          (adjAux ((t : Int) - (s : Int)) l.length none l)) = String.mk l
    exact congrArg String.mk
      (adjAux_roundtrip ((t : Int) - (s : Int)) l.length l none none
        (adjAux ((t : Int) - (s : Int)) l.length none l).length
        (le_refl _) (le_refl _) Iff.rfl h)

/-- Witness for C8: the round trip `5 → 8 → 5` restores `=SUM(A1:A10)`, whose
references satisfy the side condition. -/
theorem C8_roundtrip_witness :
    adjOk ((8 : Int) - (5 : Int)) "=SUM(A1:A10)".data.length none "=SUM(A1:A10)".data = true ∧
    adjust_formula_references (adjust_formula_references "=SUM(A1:A10)" 5 8) 8 5 =
      "=SUM(A1:A10)" :=
  ⟨by decide, C8_roundtrip "=SUM(A1:A10)" 5 8 (by decide)⟩

/-- Counterexample to claim C8 as stated: `=A1` is a relative-only formula, yet
shifting it from row 5 to row 2 renders the negative row `-2`, whose minus sign
falls outside `([A-Z]+)(\d+)` — the way back finds no match and the round trip
returns `=A-2`, not `=A1`. -/
theorem C8_counterexample :
    adjust_formula_references (adjust_formula_references "=A1" 5 2) 2 5 = "=A-2" ∧
    ("=A-2" : String) ≠ "=A1" := by
  decide
